import Mathlib

/-!
Verification development for the Obsidian-to-WordPress bilingual publishing
pipeline (src/scripts/markdown_processor.py, src/scripts/obsidian_to_wp_v2.py,
src/scripts/wp_polylang_publisher.py).

The Python code is shallowly embedded:

* paths are plain strings and the path helpers (`dirname`, `joinPath`,
  `basename`, `stem`) follow posixpath's algorithms;
* a document's YAML front matter is a `RawMeta` record holding exactly the
  fields the pipeline reads (`publish`, `title`, `wp-post-id`,
  `mirror_post_id`, `group-id`); Python truthiness of the id and group
  fields is modelled by `truthyId` / `truthyGroup`;
* the filesystem seen by the pairing resolver is an insertion-ordered
  association list `List (String × RawMeta)` (the order is the sorted order
  produced by `get_markdown_files`), plus the list of directories that
  exist (for the `os.path.exists` test of strategy 3);
* HTTP calls are modelled by explicit response values (`HttpResp`) or
  success oracles (`PairOracle`); the WordPress server that allocates post
  ids on creation is the counter `Server`;
* `save_metadata_to_file` is modelled as a function of the fallible step
  outcomes (`SaveEnv`) to the resulting file/temp-file state, mirroring the
  Python control flow including the catch-all exception handler.

Reading of files, Markdown-to-HTML rendering and logging are I/O adapters
outside the embedded core, exactly as the code structures them.
-/

/-! ## Character-list string utilities

Python's `in`, `startswith`, `endswith` and string comparison, implemented
over `List Char` so that everything reduces in the kernel. -/

def listStarts : List Char → List Char → Bool
  | [], _ => true
  | _ :: _, [] => false
  | p :: ps, c :: cs => p == c && listStarts ps cs

def listHasSub (pat : List Char) : List Char → Bool
  | [] => listStarts pat []
  | c :: cs => listStarts pat (c :: cs) || listHasSub pat cs

/-- Python `s.startswith(pat)`. -/
def strStarts (s pat : String) : Bool := listStarts pat.toList s.toList

/-- Python `s.endswith(pat)`. -/
def strEnds (s pat : String) : Bool := listStarts pat.toList.reverse s.toList.reverse

/-- Python `pat in s` (substring containment). -/
def hasSub (s pat : String) : Bool := listHasSub pat.toList s.toList

/-- Lexicographic comparison of code-point sequences, as Python string `<=`. -/
def lexLe : List Char → List Char → Bool
  | [], _ => true
  | _ :: _, [] => false
  | a :: as, b :: bs => if a == b then lexLe as bs else decide (a.toNat < b.toNat)

/-- Python string `<=` (lexicographic on code points). -/
def strLe (a b : String) : Bool := lexLe a.toList b.toList

/-- The ordering relation used to model Python's `sorted`. -/
def pathLe (a b : String) : Prop := strLe a b = true

instance : DecidableRel pathLe := fun a b => by
  unfold pathLe
  infer_instance

/-! ## posixpath helpers -/

/-- Everything up to and including the last slash (`p[:p.rfind(sep)+1]`). -/
def headUpToLastSlash (cs : List Char) : List Char :=
  ((cs.reverse).dropWhile (fun c => c != '/')).reverse

/-- Python `os.path.dirname` (posixpath): keep up to the last slash, then
strip trailing slashes unless the head is empty or all slashes. -/
def dirname (p : String) : String :=
  let head := headUpToLastSlash p.toList
  if head.isEmpty then ""
  else if head.all (fun c => c == '/') then String.mk head
  else String.mk ((head.reverse.dropWhile (fun c => c == '/')).reverse)

/-- Python `os.path.basename` (posixpath): everything after the last slash. -/
def basename (p : String) : String :=
  String.mk ((p.toList.reverse.takeWhile (fun c => c != '/')).reverse)

/-- Python `os.path.join(a, b)` (posixpath, two arguments). -/
def joinPath (a b : String) : String :=
  if strStarts b "/" then b
  else if a = "" || strEnds a "/" then a ++ b
  else a ++ "/" ++ b

/-- Python `pathlib.Path(p).stem`: the basename without its final suffix;
the suffix is dropped only when the last dot is at an interior position. -/
def stem (p : String) : String :=
  let name := (basename p).toList
  let r := name.reverse
  let k := (r.takeWhile (fun c => c != '.')).length
  if k < name.length && 0 < k && k + 1 < name.length then
    String.mk ((r.drop (k + 1)).reverse)
  else String.mk name

/-- The secondary-language-directory test of `collect_language_pairs`:
`'/english/' in ko_file or '/en/' in ko_file`. -/
def isEnglishPath (p : String) : Bool := hasSub p "/english/" || hasSub p "/en/"

/-! ## Front matter and `parse_markdown_file` -/

/-- The front-matter fields of one markdown file, as the pipeline reads
them.  `hasPublish` records whether the `publish` key is present at all and
`publish` records the truthiness of its value.  The body content and the
`language` field are not modelled: no claim depends on them. -/
structure RawMeta where
  hasPublish : Bool
  publish : Bool
  title : Option String
  wpPostId : Option Nat
  mirrorPostId : Option Nat
  groupId : Option String
deriving DecidableEq

/-- The dictionary `parse_markdown_file` builds for an eligible file. -/
structure PMeta where
  title : String
  publish : Bool
  wpPostId : Option Nat
  mirrorPostId : Option Nat
  groupId : Option String
deriving DecidableEq

/-- `parse_markdown_file` (markdown_processor.py): `None` when the
`publish` key is missing or its value is falsy, otherwise the processed
metadata with the title defaulted to the file's stem. -/
def parse_markdown_file (filePath : String) (raw : RawMeta) : Option PMeta :=
  if !raw.hasPublish then none
  else if !raw.publish then none
  else some
    { title := raw.title.getD (stem filePath)
      publish := raw.publish
      wpPostId := raw.wpPostId
      mirrorPostId := raw.mirrorPostId
      groupId := raw.groupId }

/-- Python truthiness of an optional integer field: `0` and `None` are falsy. -/
def truthyId : Option Nat → Option Nat
  | some (n + 1) => some (n + 1)
  | _ => none

/-- Python truthiness of an optional string field: `""` and `None` are falsy. -/
def truthyGroup : Option String → Option String
  | some g => if g = "" then none else some g
  | none => none

/-! ## `collect_language_pairs` (obsidian_to_wp_v2.py) -/

/-- One element of the list returned by `collect_language_pairs`. -/
structure Pair where
  title : String
  koFile : String
  enFile : Option String
  koId : Option Nat
  enId : Option Nat
deriving DecidableEq

/-- The eligible files with their parsed metadata, in discovery order: the
`all_files` dictionary.  (The loop's `if not metadata or not
metadata.get('publish')` re-check is subsumed by `parse_markdown_file`
returning `None` in exactly those cases.) -/
def allFilesOf (fs : List (String × RawMeta)) : List (String × PMeta) :=
  fs.filterMap (fun pr => (parse_markdown_file pr.1 pr.2).map (fun m => (pr.1, m)))

/-- Dictionary access `all_files.get(f)` as first-match lookup (the file
lists produced by discovery have distinct paths). -/
def lookupMeta (files : List (String × PMeta)) (f : String) : Option PMeta :=
  List.lookup f files

/-- The `post_id_to_file` dictionary: built over the eligible files in
order, later insertions overwriting earlier ones, keyed only on truthy
`wp-post-id` values. -/
def postIdxOf (files : List (String × PMeta)) : Nat → Option String :=
  files.foldl
    (fun acc pr =>
      match truthyId pr.2.wpPostId with
      | some pid => fun q => if q = pid then some pr.1 else acc q
      | none => acc)
    (fun _ => none)

/-- The `group_id_to_files` dictionary: for each truthy `group-id`, the
eligible files carrying it, in discovery order. -/
def groupIdxOf (files : List (String × PMeta)) : String → List String :=
  files.foldl
    (fun acc pr =>
      match truthyGroup pr.2.groupId with
      | some g => fun q => if q = g then acc q ++ [pr.1] else acc q
      | none => acc)
    (fun _ => [])

/-- Strategy 1 of `collect_language_pairs`: the first file in the group
index sharing the primary's truthy `group-id` that is a different file,
lies in a secondary-language directory and is not yet consumed. -/
def strategyGroupId (groupIdx : String → List String) (processed : List String)
    (koFile : String) (koMeta : PMeta) : Option String :=
  match truthyGroup koMeta.groupId with
  | none => none
  | some g =>
    (groupIdx g).find? (fun c => c != koFile && isEnglishPath c && !processed.contains c)

/-- Strategy 2 of `collect_language_pairs`: look the primary's truthy
`mirror_post_id` up in `post_id_to_file`; the hit is taken as the secondary
with no secondary-language-directory check and no consumed check. -/
def strategyMirrorId (files : List (String × PMeta)) (postIdx : Nat → Option String)
    (koMeta : PMeta) : Option (String × Option Nat) :=
  match truthyId koMeta.mirrorPostId with
  | none => none
  | some mid =>
    match postIdx mid with
    | none => none
    | some f => some (f, (lookupMeta files f).bind (fun m => m.wpPostId))

/-- Strategy 3 of `collect_language_pairs`: the file of identical basename
inside the `english` subdirectory of the primary's directory, provided that
directory exists, the file is eligible and not yet consumed. -/
def enCandidate (koFile : String) : String :=
  joinPath (joinPath (dirname koFile) "english") (basename koFile)

def strategyFolder (files : List (String × PMeta)) (dirs : List String)
    (processed : List String) (koFile : String) : Option (String × Option Nat) :=
  if dirs.contains (joinPath (dirname koFile) "english") then
    if (lookupMeta files (enCandidate koFile)).isSome
        && !processed.contains (enCandidate koFile) then
      some (enCandidate koFile,
        (lookupMeta files (enCandidate koFile)).bind (fun m => m.wpPostId))
    else none
  else none

/-- The per-primary secondary selection of `collect_language_pairs`: the
three strategies tried in priority order. -/
def chooseSecondary (files : List (String × PMeta)) (postIdx : Nat → Option String)
    (groupIdx : String → List String) (dirs : List String) (processed : List String)
    (koFile : String) (koMeta : PMeta) : Option (String × Option Nat) :=
  match strategyGroupId groupIdx processed koFile koMeta with
  | some c => some (c, (lookupMeta files c).bind (fun m => m.wpPostId))
  | none =>
    match strategyMirrorId files postIdx koMeta with
    | some r => some r
    | none => strategyFolder files dirs processed koFile

/-- The pair dictionary appended for one primary. -/
def mkPair (koFile : String) (koMeta : PMeta) (sec : Option (String × Option Nat)) : Pair :=
  { title := koMeta.title
    koFile := koFile
    enFile := sec.map Prod.fst
    koId := koMeta.wpPostId
    enId := sec.bind Prod.snd }

/-- The main pairing loop over `all_files`, carrying the `processed_files`
set (as a list). -/
def collectAux (files : List (String × PMeta)) (postIdx : Nat → Option String)
    (groupIdx : String → List String) (dirs : List String) :
    List (String × PMeta) → List String → List Pair
  | [], _ => []
  | (koFile, koMeta) :: rest, processed =>
    if processed.contains koFile then
      collectAux files postIdx groupIdx dirs rest processed
    else if isEnglishPath koFile then
      collectAux files postIdx groupIdx dirs rest processed
    else
      let sec := chooseSecondary files postIdx groupIdx dirs processed koFile koMeta
      mkPair koFile koMeta sec ::
        collectAux files postIdx groupIdx dirs rest
          (processed ++ koFile :: (sec.map Prod.fst).toList)

/-- `collect_language_pairs` (obsidian_to_wp_v2.py): index the eligible
files, then pair each primary-language file with a secondary found by the
three strategies.  `fs` is the discovered file list (in `get_markdown_files`
order) with each file's front matter; `dirs` is the set of directories that
exist on disk. -/
def collect_language_pairs (fs : List (String × RawMeta)) (dirs : List String) : List Pair :=
  let files := allFilesOf fs
  collectAux files (postIdxOf files) (groupIdxOf files) dirs files []

/-- The eligible document set: the files `parse_markdown_file` accepts. -/
def eligibleFiles (fs : List (String × RawMeta)) : List String :=
  (allFilesOf fs).map Prod.fst

/-- Document `d` appears in the pair list, as primary or secondary. -/
def appearsIn (d : String) (pairs : List Pair) : Prop :=
  ∃ p ∈ pairs, p.koFile = d ∨ p.enFile = some d

/-! ## `get_markdown_files` (markdown_processor.py) -/

/-- A directory tree: the markdown-relevant file names in a directory plus
its named subdirectories. -/
inductive DirTree where
  | node (files : List String) (subdirs : List (String × DirTree))

mutual

/-- The `os.walk` collection loop of `get_markdown_files`: keep the
`.md`-suffixed, non-hidden files of this directory and recurse into the
subdirectories that survive the exclusion filter. -/
def walkCollect (path : String) (excl : List String) : DirTree → List String
  | DirTree.node files subdirs =>
    files.filterMap
      (fun f => if strEnds f ".md" && !strStarts f "." then some (joinPath path f) else none)
      ++ walkSubdirs path excl subdirs

/-- Recursion over the pruned subdirectory list. -/
def walkSubdirs (path : String) (excl : List String) : List (String × DirTree) → List String
  | [] => []
  | (name, t) :: rest =>
    (if excl.contains name then [] else walkCollect (joinPath path name) excl t)
      ++ walkSubdirs path excl rest

end

/-- `get_markdown_files` (markdown_processor.py): walk the tree under
`folderPath`, pruning excluded directory names (default: `templates`,
`drafts`, `.obsidian`), keep non-hidden `.md` files, return the paths
sorted. -/
def get_markdown_files (folderPath : String) (tree : DirTree)
    (excludeFolders : Option (List String)) : List String :=
  let excl := excludeFolders.getD ["templates", "drafts", ".obsidian"]
  List.insertionSort pathLe (walkCollect folderPath excl tree)

/-! ## `save_metadata_to_file` (markdown_processor.py) -/

/-- Outcomes of the fallible steps of one `save_metadata_to_file` call.
`newContent` is the `frontmatter.dumps` serialization of the updated
document; `writtenContent` is what a re-read of the temporary file returns
(equal to `newContent` unless the write was cut short); the Booleans tell
whether the corresponding step raises. -/
structure SaveEnv where
  readOk : Bool
  parseOk : Bool
  newContent : String
  writeOk : Bool
  writtenContent : String
  moveOk : Bool
deriving DecidableEq

/-- The observable outcome of one `save_metadata_to_file` call: the return
value, the final content of the target file, and the temporary file left on
disk (if any). -/
structure SaveResult where
  ok : Bool
  fileContent : String
  tempFile : Option String
deriving DecidableEq

/-- The sanity check of steps 5 and 7: the candidate content is rejected
when empty or when shorter than the original length minus 100 (computed
over the integers, as in Python). -/
def lengthCheck (orig cand : String) : Bool :=
  !(cand = "") && !((cand.length : Int) < (orig.length : Int) - 100)

/-- `save_metadata_to_file` (markdown_processor.py).  Each fallible step
either proceeds or lands in the catch-all handler, which unlinks any
dangling temporary file and returns `False`; the original content is
replaced (by `shutil.move`) only on the full success path. -/
def save_metadata_to_file (env : SaveEnv) (originalContent : String) : SaveResult :=
  if !env.readOk then
    { ok := false, fileContent := originalContent, tempFile := none }
  else if !env.parseOk then
    { ok := false, fileContent := originalContent, tempFile := none }
  else if !(lengthCheck originalContent env.newContent) then
    { ok := false, fileContent := originalContent, tempFile := none }
  else if !env.writeOk then
    -- the handler unlinks the partially written temporary file
    { ok := false, fileContent := originalContent, tempFile := none }
  else if !(lengthCheck originalContent env.writtenContent) then
    -- explicit `os.unlink(temp_file)` before returning False
    { ok := false, fileContent := originalContent, tempFile := none }
  else if !env.moveOk then
    -- the handler unlinks the still-present temporary file
    { ok := false, fileContent := originalContent, tempFile := none }
  else
    { ok := true, fileContent := env.writtenContent, tempFile := none }

/-! ## `PolylangPublisher.publish_post` (wp_polylang_publisher.py) -/

/-- Which REST endpoint a publish call hits. -/
inductive Endpoint where
  | createPosts
  | updatePost (i : Nat)
deriving DecidableEq

/-- The `if post_id:` branch selection of `publish_post`. -/
def endpointFor (postId : Option Nat) : Endpoint :=
  match truthyId postId with
  | some i => Endpoint.updatePost i
  | none => Endpoint.createPosts

/-- An HTTP response as `publish_post` inspects it. -/
structure HttpResp where
  status : Nat
  respId : Option Nat
deriving DecidableEq

/-- The dictionary `publish_post` returns (the fields the claims read). -/
structure PublishResult where
  success : Bool
  postId : Option Nat
deriving DecidableEq

/-- `publish_post`: choose create or update by truthiness of `post_id`,
then classify the response: success exactly on HTTP 200 or 201, failure
otherwise and on transport exceptions (`resp = none`). -/
def publish_post (postId : Option Nat) (resp : Option HttpResp) : PublishResult × Endpoint :=
  let ep := endpointFor postId
  match resp with
  | none => ({ success := false, postId := postId }, ep)
  | some r =>
    if r.status = 200 || r.status = 201 then
      ({ success := true, postId := r.respId }, ep)
    else
      ({ success := false, postId := postId }, ep)

/-! ## `process_pairs` (obsidian_to_wp_v2.py) -/

/-- Which side of a pair a remote operation serves. -/
inductive Side where
  | ko
  | en
deriving DecidableEq

/-- The externally visible operations `process_pairs` performs, in order. -/
inductive PubAction where
  | publishPost (side : Side) (ep : Endpoint)
  | saveMeta (side : Side) (file : String) (value : Nat)
  | setFeatured (side : Side)
  | linkTranslations (koId enId : Nat)
deriving DecidableEq

/-- The remote side, reduced to what the claims observe: the next id a
create would allocate and how many posts have been created. -/
structure Server where
  nextId : Nat
  created : Nat
deriving DecidableEq

/-- One publish call against a WordPress that honours the request: an
update echoes the posted id, a create allocates a fresh id; `ok = false`
models a failed response. -/
def serverPublish (postId : Option Nat) (ok : Bool) (srv : Server) : Option Nat × Server :=
  if ok then
    match truthyId postId with
    | some i => (some i, srv)
    | none => (some srv.nextId, { nextId := srv.nextId + 1, created := srv.created + 1 })
  else (none, srv)

/-- Success oracle for the remote calls of one pair: whether each publish
succeeds, whether a cover image is found for each side, and whether the
translation link succeeds. -/
structure PairOracle where
  koOk : Bool
  koCover : Bool
  enOk : Bool
  enCover : Bool
  linkOk : Bool
deriving DecidableEq

/-- The run with every remote operation succeeding and no cover images. -/
def allOk : PairOracle :=
  { koOk := true, koCover := false, enOk := true, enCover := false, linkOk := true }

/-- `save_metadata_to_file(file, 'wp-post-id', v)` at the reconciliation
level: update the file's front matter in place. -/
def setWpPostId (fs : List (String × RawMeta)) (file : String) (v : Nat) :
    List (String × RawMeta) :=
  fs.map (fun pr => if pr.1 = file then (pr.1, { pr.2 with wpPostId := some v }) else pr)

/-- The reconciler state threaded through `process_pairs`: the local
filesystem, the remote server, and the `failed` counter. -/
structure StepState where
  fs : List (String × RawMeta)
  srv : Server
  failed : Nat
deriving DecidableEq

/-- The body of the `for pair in pairs` loop of `process_pairs`: publish
the primary (create or update by truthiness of the pair's stored id); on
failure count it and move to the next pair; on success persist the id,
optionally set the cover, then do the same for the secondary and finally
link the translations. -/
def processOne (st : StepState) (pair : Pair) (orc : PairOracle) :
    List PubAction × StepState :=
  let koStep := serverPublish pair.koId orc.koOk st.srv
  let tr0 := [PubAction.publishPost Side.ko (endpointFor pair.koId)]
  match koStep.1 with
  | none => (tr0, { st with srv := koStep.2, failed := st.failed + 1 })
  | some kid =>
    let fs1 := setWpPostId st.fs pair.koFile kid
    let tr1 := tr0 ++ [PubAction.saveMeta Side.ko pair.koFile kid]
      ++ (if orc.koCover then [PubAction.setFeatured Side.ko] else [])
    match pair.enFile with
    | none => (tr1, { fs := fs1, srv := koStep.2, failed := st.failed })
    | some ef =>
      let enStep := serverPublish pair.enId orc.enOk koStep.2
      let tr2 := tr1 ++ [PubAction.publishPost Side.en (endpointFor pair.enId)]
      match enStep.1 with
      | none => (tr2, { fs := fs1, srv := enStep.2, failed := st.failed + 1 })
      | some eid =>
        let fs2 := setWpPostId fs1 ef eid
        let tr3 := tr2 ++ [PubAction.saveMeta Side.en ef eid]
          ++ (if orc.enCover then [PubAction.setFeatured Side.en] else [])
          ++ [PubAction.linkTranslations kid eid]
        (tr3, { fs := fs2, srv := enStep.2,
                failed := if orc.linkOk then st.failed else st.failed + 1 })

/-- `process_pairs`: fold `processOne` over the pair list, one oracle entry
per pair, collecting each pair's action trace. -/
def process_pairs (st : StepState) : List Pair → List PairOracle →
    List (List PubAction) × StepState
  | [], _ => ([], st)
  | _ :: _, [] => ([], st)
  | p :: ps, o :: os =>
    let step := processOne st p o
    let rest := process_pairs step.2 ps os
    (step.1 :: rest.1, rest.2)

/-- One full reconciliation run with every remote operation succeeding:
pair the documents, then process every pair. -/
def runOnce (dirs : List String) (fs : List (String × RawMeta)) (srv : Server) :
    List (List PubAction) × StepState :=
  let pairs := collect_language_pairs fs dirs
  process_pairs { fs := fs, srv := srv, failed := 0 } pairs
    (List.replicate pairs.length allOk)

/-! ## General lemmas about the embedded primitives -/

theorem char_toNat_injective {a b : Char} (h : a.toNat = b.toNat) : a = b := by
  have := Char.ofNat_toNat a
  rw [h, Char.ofNat_toNat] at this
  exact this.symm

theorem lexLe_total : ∀ a b : List Char, lexLe a b = true ∨ lexLe b a = true
  | [], _ => Or.inl rfl
  | _ :: _, [] => Or.inr rfl
  | a :: as, b :: bs => by
    by_cases hab : a = b
    · subst hab
      have := lexLe_total as bs
      simpa [lexLe] using this
    · have hne : a.toNat ≠ b.toNat := fun h => hab (char_toNat_injective h)
      rcases Nat.lt_or_ge a.toNat b.toNat with h | h
      · left
        simp [lexLe, beq_eq_false_iff_ne.mpr hab, h]
      · right
        have hba : ¬(b = a) := fun h2 => hab h2.symm
        have : b.toNat < a.toNat := lt_of_le_of_ne h (fun h2 => hne h2.symm)
        simp [lexLe, beq_eq_false_iff_ne.mpr hba, this]

theorem lexLe_trans :
    ∀ a b c : List Char, lexLe a b = true → lexLe b c = true → lexLe a c = true
  | [], _, _ => by intro _ _; rfl
  | _ :: _, [], _ => by intro h _; simp [lexLe] at h
  | _ :: _, _ :: _, [] => by intro _ h; simp [lexLe] at h
  | a :: as, b :: bs, c :: cs => by
    intro h1 h2
    by_cases hab : a = b
    · subst hab
      by_cases hac : a = c
      · subst hac
        simp [lexLe] at h1 h2 ⊢
        exact lexLe_trans as bs cs h1 h2
      · simp [lexLe, beq_eq_false_iff_ne.mpr hac] at h2 ⊢
        exact h2
    · by_cases hbc : b = c
      · subst hbc
        simp [lexLe, beq_eq_false_iff_ne.mpr hab] at h1 ⊢
        exact h1
      · simp [lexLe, beq_eq_false_iff_ne.mpr hab, beq_eq_false_iff_ne.mpr hbc] at h1 h2
        by_cases hac : a = c
        · subst hac
          exact absurd (Nat.lt_trans h1 h2) (Nat.lt_irrefl _)
        · simp [lexLe, beq_eq_false_iff_ne.mpr hac]
          exact Nat.lt_trans h1 h2

instance : IsTotal String pathLe :=
  ⟨fun a b => lexLe_total a.toList b.toList⟩

instance : IsTrans String pathLe :=
  ⟨fun a b c h1 h2 => lexLe_trans a.toList b.toList c.toList h1 h2⟩

theorem lookup_mem {β : Type} (l : List (String × β)) (x : String) (v : β)
    (h : List.lookup x l = some v) : (x, v) ∈ l := by
  induction l with
  | nil => simp [List.lookup] at h
  | cons a t ih =>
    rw [List.lookup] at h
    by_cases hx : x = a.1
    · simp [hx] at h
      have : (x, v) = a := by rw [hx, ← h]
      rw [this]
      exact List.mem_cons_self a t
    · simp [beq_eq_false_iff_ne.mpr hx] at h
      exact List.mem_cons_of_mem a (ih h)

theorem lookup_isSome_iff {β : Type} (l : List (String × β)) (x : String) :
    (List.lookup x l).isSome = true ↔ x ∈ l.map Prod.fst := by
  induction l with
  | nil => simp [List.lookup]
  | cons a t ih =>
    rw [List.lookup]
    by_cases hx : x = a.1
    · simp [hx]
    · simp [beq_eq_false_iff_ne.mpr hx, hx, ih]

theorem lookup_of_mem_nodup {β : Type} (l : List (String × β)) (x : String) (v : β)
    (hN : (l.map Prod.fst).Nodup) (hmem : (x, v) ∈ l) : List.lookup x l = some v := by
  induction l with
  | nil => simp at hmem
  | cons a t ih =>
    simp at hN
    rcases List.mem_cons.mp hmem with h | h
    · rw [← h, List.lookup]
      simp
    · rw [List.lookup]
      by_cases hx : x = a.1
      · exfalso
        exact hN.1 v (by rw [← hx]; exact h)
      · simp [beq_eq_false_iff_ne.mpr hx]
        exact ih hN.2 h

theorem snd_unique_of_nodup {β : Type} (l : List (String × β)) (x : String) (v w : β)
    (hN : (l.map Prod.fst).Nodup) (h1 : (x, v) ∈ l) (h2 : (x, w) ∈ l) : v = w := by
  have e1 := lookup_of_mem_nodup l x v hN h1
  have e2 := lookup_of_mem_nodup l x w hN h2
  rw [e1] at e2
  exact Option.some_inj.mp e2

/-! ## Claim C6: failure classification of `publish_post` -/

/-- Claim C6, counterexample: the claim says every 2xx/3xx response is
reported as success, but `publish_post` accepts only 200 and 201; a 202
response (squarely inside 2xx) is reported as a failure. -/
theorem publish_post_claim_false_at_202 :
    (200 ≤ 202 ∧ 202 < 300) ∧
    (publish_post none (some { status := 202, respId := some 7 })).1.success = false := by
  constructor
  · exact ⟨by decide, by decide⟩
  · rfl

/-- Claim C6, amended: a publish operation is marked failed exactly when the
HTTP status is not 200 and not 201; in particular every response outside
the 2xx/3xx range is marked failed, but so are all 2xx/3xx statuses other
than 200 and 201. -/
theorem publish_post_success_iff (pid : Option Nat) (r : HttpResp) :
    ((publish_post pid (some r)).1.success = true ↔ (r.status = 200 ∨ r.status = 201)) ∧
    (¬(200 ≤ r.status ∧ r.status < 400) → (publish_post pid (some r)).1.success = false) := by
  constructor
  · unfold publish_post
    by_cases h : (r.status = 200 ∨ r.status = 201)
    · have : (r.status = 200 || r.status = 201) = true := by
        rcases h with h | h <;> simp [h]
      simp [this, h]
    · have : (r.status = 200 || r.status = 201) = false := by
        push_neg at h
        simp [h.1, h.2]
      simp [this, h]
  · intro h
    unfold publish_post
    have h200 : r.status ≠ 200 := by omega
    have h201 : r.status ≠ 201 := by omega
    simp [h200, h201]

/-- Claim C6 witness: a 500 response is reported as failure. -/
theorem publish_post_success_iff_witness :
    (publish_post none (some { status := 500, respId := none })).1.success = false :=
  (publish_post_success_iff none { status := 500, respId := none }).2 (by decide)

/-! ## Claim C3: crash safety of `save_metadata_to_file` -/

/-- Claim C3: whenever `save_metadata_to_file` returns false (including all
internally raised and caught exceptions), the original content is unchanged
and no temporary file remains; and the original is replaced only when both
sanity checks passed. -/
theorem save_metadata_failure_preserves_original (env : SaveEnv) (orig : String) :
    ((save_metadata_to_file env orig).ok = false →
      (save_metadata_to_file env orig).fileContent = orig ∧
      (save_metadata_to_file env orig).tempFile = none) ∧
    ((save_metadata_to_file env orig).ok = true →
      lengthCheck orig env.newContent = true ∧
      lengthCheck orig env.writtenContent = true) := by
  unfold save_metadata_to_file
  split_ifs with h1 h2 h3 h4 h5 h6 <;> simp_all

/-- Claim C3 witness: a failing parse step leaves the file "abc" intact and
no temporary file behind. -/
theorem save_metadata_failure_preserves_original_witness :
    (save_metadata_to_file
        { readOk := true, parseOk := false, newContent := "xyz", writeOk := true,
          writtenContent := "xyz", moveOk := true } "abc").fileContent = "abc" ∧
    (save_metadata_to_file
        { readOk := true, parseOk := false, newContent := "xyz", writeOk := true,
          writtenContent := "xyz", moveOk := true } "abc").tempFile = none :=
  (save_metadata_failure_preserves_original
    { readOk := true, parseOk := false, newContent := "xyz", writeOk := true,
      writtenContent := "xyz", moveOk := true } "abc").1 (by decide)

/-! ## Claim C7: the length sanity check of `save_metadata_to_file` -/

/-- Claim C7: the write returns false whenever the serialized content is
shorter than the original length minus 100; success requires the length
bound for the serialized content and, a second time, for the content
re-read from the temporary file. -/
theorem lengthCheck_true_iff (orig cand : String) :
    lengthCheck orig cand = true ↔
      cand ≠ "" ∧ (orig.length : Int) - 100 ≤ (cand.length : Int) := by
  unfold lengthCheck
  rw [Bool.and_eq_true, Bool.not_eq_true', Bool.not_eq_true']
  constructor
  · intro ⟨ha, hb⟩
    refine ⟨by simpa using ha, ?_⟩
    have := of_decide_eq_false hb
    omega
  · intro ⟨ha, hb⟩
    refine ⟨by simpa using ha, ?_⟩
    apply decide_eq_false
    omega

theorem save_metadata_length_guard (env : SaveEnv) (orig : String) :
    (((env.newContent.length : Int) < (orig.length : Int) - 100) →
      (save_metadata_to_file env orig).ok = false) ∧
    ((save_metadata_to_file env orig).ok = true →
      (orig.length : Int) - 100 ≤ (env.newContent.length : Int) ∧
      (orig.length : Int) - 100 ≤ (env.writtenContent.length : Int)) := by
  constructor
  · intro hshort
    cases hok : (save_metadata_to_file env orig).ok
    · rfl
    · exfalso
      have h := ((save_metadata_failure_preserves_original env orig).2 hok).1
      have h2 := (lengthCheck_true_iff orig env.newContent).mp h
      omega
  · intro hok
    have h := (save_metadata_failure_preserves_original env orig).2 hok
    exact ⟨((lengthCheck_true_iff orig env.newContent).mp h.1).2,
      ((lengthCheck_true_iff orig env.writtenContent).mp h.2).2⟩

set_option maxRecDepth 4096 in
/-- Claim C7 witness: serializing a 150-character file down to 10
characters is rejected. -/
theorem save_metadata_length_guard_witness :
    (save_metadata_to_file
        { readOk := true, parseOk := true, newContent := String.mk (List.replicate 10 'b'),
          writeOk := true, writtenContent := String.mk (List.replicate 10 'b'), moveOk := true }
        (String.mk (List.replicate 150 'a'))).ok = false :=
  (save_metadata_length_guard
    { readOk := true, parseOk := true, newContent := String.mk (List.replicate 10 'b'),
      writeOk := true, writtenContent := String.mk (List.replicate 10 'b'), moveOk := true }
    (String.mk (List.replicate 150 'a'))).1 (by decide)

/-! ## Lemmas about the pairing indices -/

theorem contains_iff (l : List String) (x : String) : l.contains x = true ↔ x ∈ l := by
  simp [List.contains]

theorem groupIdxOf_aux (files : List (String × PMeta)) :
    ∀ (acc : String → List String) (g : String),
      (files.foldl
        (fun acc pr =>
          match truthyGroup pr.2.groupId with
          | some g0 => fun q => if q = g0 then acc q ++ [pr.1] else acc q
          | none => acc) acc) g
      = acc g ++ (files.filter (fun pm => truthyGroup pm.2.groupId == some g)).map Prod.fst := by
  induction files with
  | nil => intro acc g; simp
  | cons pr rest ih =>
    intro acc g
    rw [List.foldl_cons]
    cases htr : truthyGroup pr.2.groupId with
    | none =>
      rw [ih]
      have hf : (truthyGroup pr.2.groupId == some g) = false := by rw [htr]; rfl
      simp [List.filter_cons, hf, htr]
    | some g0 =>
      rw [ih]
      by_cases hg : g = g0
      · subst hg
        have hf : (truthyGroup pr.2.groupId == some g) = true := by rw [htr]; simp
        simp [List.filter_cons, hf, htr, List.append_assoc]
      · have hf : (truthyGroup pr.2.groupId == some g) = false := by
          rw [htr]
          simp
          exact fun h => hg h.symm
        have hg' : (g = g0) = False := eq_false hg
        have hg2 : ¬g0 = g := fun h => hg h.symm
        simp [List.filter_cons, hf, htr, hg', hg2]

theorem groupIdxOf_eq_filter (files : List (String × PMeta)) (g : String) :
    groupIdxOf files g =
      (files.filter (fun pm => truthyGroup pm.2.groupId == some g)).map Prod.fst := by
  unfold groupIdxOf
  rw [groupIdxOf_aux]
  simp

theorem groupIdxOf_mem_keys (files : List (String × PMeta)) (g : String) (x : String)
    (h : x ∈ groupIdxOf files g) : x ∈ files.map Prod.fst := by
  rw [groupIdxOf_eq_filter] at h
  rcases List.mem_map.mp h with ⟨pm, hpm, hfst⟩
  rw [← hfst]
  exact List.mem_map_of_mem Prod.fst (List.mem_of_mem_filter hpm)

theorem postIdx_aux (files : List (String × PMeta)) :
    ∀ (acc : Nat → Option String) (m : Nat) (x : String),
      (files.foldl
        (fun acc pr =>
          match truthyId pr.2.wpPostId with
          | some pid => fun q => if q = pid then some pr.1 else acc q
          | none => acc) acc) m = some x →
      acc m = some x ∨ x ∈ files.map Prod.fst := by
  induction files with
  | nil => intro acc m x h; exact Or.inl h
  | cons pr rest ih =>
    intro acc m x h
    rw [List.foldl_cons] at h
    rcases ih _ m x h with h2 | h2
    · cases htr : truthyId pr.2.wpPostId with
      | none =>
        rw [htr] at h2
        exact Or.inl h2
      | some pid =>
        rw [htr] at h2
        by_cases hm : m = pid
        · simp [hm] at h2
          right
          rw [← h2]
          exact List.mem_map_of_mem Prod.fst (List.mem_cons_self pr rest)
        · simp [hm] at h2
          exact Or.inl h2
    · right
      rw [List.map_cons]
      exact List.mem_cons_of_mem _ h2

theorem postIdxOf_mem_keys (files : List (String × PMeta)) (m : Nat) (x : String)
    (h : postIdxOf files m = some x) : x ∈ files.map Prod.fst := by
  unfold postIdxOf at h
  rcases postIdx_aux files _ m x h with h2 | h2
  · exact absurd h2 (by simp)
  · exact h2

/-! ## Lemmas about `chooseSecondary` and `collectAux` -/

theorem chooseSecondary_spec (files : List (String × PMeta)) (postIdx : Nat → Option String)
    (groupIdx : String → List String) (dirs : List String) (processed : List String)
    (koFile : String) (koMeta : PMeta)
    (hP : ∀ m x, postIdx m = some x → x ∈ files.map Prod.fst)
    (hG : ∀ g x, x ∈ groupIdx g → x ∈ files.map Prod.fst) :
    ∀ r, chooseSecondary files postIdx groupIdx dirs processed koFile koMeta = some r →
      r.1 ∈ files.map Prod.fst ∧
      r.2 = (lookupMeta files r.1).bind (fun m => m.wpPostId) := by
  intro r h
  rw [chooseSecondary] at h
  cases h1 : strategyGroupId groupIdx processed koFile koMeta with
  | some c =>
    rw [h1] at h
    simp only [] at h
    have hr : r = (c, (lookupMeta files c).bind (fun m => m.wpPostId)) :=
      (Option.some_inj.mp h).symm
    subst hr
    refine ⟨?_, rfl⟩
    rw [strategyGroupId] at h1
    cases h2 : truthyGroup koMeta.groupId with
    | none => rw [h2] at h1; exact absurd h1 (by simp)
    | some g =>
      rw [h2] at h1
      simp only [] at h1
      exact hG g c (List.mem_of_find?_eq_some h1)
  | none =>
    rw [h1] at h
    simp only [] at h
    cases h2 : strategyMirrorId files postIdx koMeta with
    | some r2 =>
      rw [h2] at h
      simp only [] at h
      have hr : r = r2 := (Option.some_inj.mp h).symm
      subst hr
      rw [strategyMirrorId] at h2
      cases h3 : truthyId koMeta.mirrorPostId with
      | none => rw [h3] at h2; exact absurd h2 (by simp)
      | some mid =>
        simp only [h3] at h2
        cases h4 : postIdx mid with
        | none => simp [h4] at h2
        | some f =>
          simp only [h4] at h2
          have hf : (f, (lookupMeta files f).bind (fun m => m.wpPostId)) = r :=
            Option.some_inj.mp h2
          rw [← hf]
          exact ⟨hP mid f h4, rfl⟩
    | none =>
      rw [h2] at h
      simp only [] at h
      rw [strategyFolder] at h
      split_ifs at h with hd hc
      have hr : r = (enCandidate koFile,
          (lookupMeta files (enCandidate koFile)).bind (fun m => m.wpPostId)) :=
        (Option.some_inj.mp h).symm
      subst hr
      refine ⟨?_, rfl⟩
      have hsome := (Bool.and_eq_true _ _).mp hc
      exact (lookup_isSome_iff files _).mp hsome.1

theorem collectAux_facts (files : List (String × PMeta)) (postIdx : Nat → Option String)
    (groupIdx : String → List String) (dirs : List String)
    (hP : ∀ m x, postIdx m = some x → x ∈ files.map Prod.fst)
    (hG : ∀ g x, x ∈ groupIdx g → x ∈ files.map Prod.fst) :
    ∀ (l : List (String × PMeta)) (processed : List String),
      ∀ p ∈ collectAux files postIdx groupIdx dirs l processed,
        (∃ m, (p.koFile, m) ∈ l ∧ p.koId = m.wpPostId) ∧
        isEnglishPath p.koFile = false ∧
        p.koFile ∉ processed ∧
        (∀ s, p.enFile = some s →
          s ∈ files.map Prod.fst ∧
          p.enId = (lookupMeta files s).bind (fun m => m.wpPostId)) := by
  intro l
  induction l with
  | nil => intro processed p hp; simp [collectAux] at hp
  | cons km rest ih =>
    intro processed p hp
    obtain ⟨koFile, koMeta⟩ := km
    by_cases h1 : processed.contains koFile
    · rw [collectAux, if_pos h1] at hp
      have h := ih processed p hp
      exact ⟨h.1.elim (fun m hm => ⟨m, List.mem_cons_of_mem _ hm.1, hm.2⟩),
        h.2.1, h.2.2.1, h.2.2.2⟩
    · by_cases h2 : isEnglishPath koFile
      · rw [collectAux, if_neg h1, if_pos h2] at hp
        have h := ih processed p hp
        exact ⟨h.1.elim (fun m hm => ⟨m, List.mem_cons_of_mem _ hm.1, hm.2⟩),
          h.2.1, h.2.2.1, h.2.2.2⟩
      · rw [collectAux, if_neg h1, if_neg h2] at hp
        rcases List.mem_cons.mp hp with hhead | htail
        · subst hhead
          refine ⟨⟨koMeta, List.mem_cons_self _ _, rfl⟩, ?_, ?_, ?_⟩
          · simpa using h2
          · intro hmem
            exact h1 ((contains_iff processed koFile).mpr hmem)
          · intro s hs
            cases hsec : chooseSecondary files postIdx groupIdx dirs processed koFile koMeta with
            | none =>
              rw [hsec] at hs
              simp [mkPair] at hs
            | some r =>
              have hspec := chooseSecondary_spec files postIdx groupIdx dirs processed
                koFile koMeta hP hG r hsec
              rw [hsec] at hs
              have hrs : r.1 = s := by simpa [mkPair] using hs
              constructor
              · rw [← hrs]
                exact hspec.1
              · show r.2 = (lookupMeta files s).bind (fun m => m.wpPostId)
                rw [← hrs]
                exact hspec.2
        · have h := ih _ p htail
          refine ⟨h.1.elim (fun m hm => ⟨m, List.mem_cons_of_mem _ hm.1, hm.2⟩),
            h.2.1, ?_, h.2.2.2⟩
          intro hmem
          exact h.2.2.1 (List.mem_append_left _ hmem)

theorem collectAux_nodup (files : List (String × PMeta)) (postIdx : Nat → Option String)
    (groupIdx : String → List String) (dirs : List String)
    (hP : ∀ m x, postIdx m = some x → x ∈ files.map Prod.fst)
    (hG : ∀ g x, x ∈ groupIdx g → x ∈ files.map Prod.fst) :
    ∀ (l : List (String × PMeta)) (processed : List String),
      ((collectAux files postIdx groupIdx dirs l processed).map (fun p => p.koFile)).Nodup := by
  intro l
  induction l with
  | nil => intro processed; simp [collectAux]
  | cons km rest ih =>
    intro processed
    obtain ⟨koFile, koMeta⟩ := km
    by_cases h1 : processed.contains koFile
    · rw [collectAux, if_pos h1]; exact ih processed
    · by_cases h2 : isEnglishPath koFile
      · rw [collectAux, if_neg h1, if_pos h2]; exact ih processed
      · rw [collectAux, if_neg h1, if_neg h2]
        rw [List.map_cons, List.nodup_cons]
        constructor
        · intro hmem
          rcases List.mem_map.mp hmem with ⟨p, hp, hfst⟩
          have h := collectAux_facts files postIdx groupIdx dirs hP hG rest _ p hp
          apply h.2.2.1
          apply List.mem_append_right
          rw [hfst]
          exact List.mem_cons_self _ _
        · exact ih _

theorem collectAux_covers (files : List (String × PMeta)) (postIdx : Nat → Option String)
    (groupIdx : String → List String) (dirs : List String) :
    ∀ (l : List (String × PMeta)) (processed : List String) (d : String),
      d ∈ l.map Prod.fst → isEnglishPath d = false →
      d ∈ processed ∨ appearsIn d (collectAux files postIdx groupIdx dirs l processed) := by
  intro l
  induction l with
  | nil => intro processed d hd _; simp at hd
  | cons km rest ih =>
    intro processed d hd hEng
    obtain ⟨koFile, koMeta⟩ := km
    rcases List.mem_map.mp hd with ⟨pm, hpm, hfst⟩
    by_cases h1 : processed.contains koFile
    · rw [collectAux, if_pos h1]
      rcases List.mem_cons.mp hpm with hh | ht
    -- either d is the head key (then it is already processed) or recurse
      · left
        rw [← hfst, hh]
        exact (contains_iff processed koFile).mp h1
      · exact ih processed d (by rw [← hfst]; exact List.mem_map_of_mem Prod.fst ht) hEng
    · by_cases h2 : isEnglishPath koFile
      · rw [collectAux, if_neg h1, if_pos h2]
        rcases List.mem_cons.mp hpm with hh | ht
        · have hd2 : koFile = d := by rw [← hfst, hh]
          rw [← hd2] at hEng
          rw [hEng] at h2
          simp at h2
        · exact ih processed d (by rw [← hfst]; exact List.mem_map_of_mem Prod.fst ht) hEng
      · rw [collectAux, if_neg h1, if_neg h2]
        rcases List.mem_cons.mp hpm with hh | ht
        · right
          refine ⟨mkPair koFile koMeta _, List.mem_cons_self _ _, Or.inl ?_⟩
          show koFile = d
          rw [← hfst, hh]
        · rcases ih (processed ++ koFile :: ((chooseSecondary files postIdx groupIdx dirs
              processed koFile koMeta).map Prod.fst).toList) d
              (by rw [← hfst]; exact List.mem_map_of_mem Prod.fst ht) hEng with h3 | h3
          · rcases List.mem_append.mp h3 with h4 | h4
            · exact Or.inl h4
            · right
              rcases List.mem_cons.mp h4 with h5 | h5
              · refine ⟨mkPair koFile koMeta _, List.mem_cons_self _ _, Or.inl ?_⟩
                show koFile = d
                rw [h5]
              · refine ⟨mkPair koFile koMeta _, List.mem_cons_self _ _, Or.inr ?_⟩
                show (chooseSecondary files postIdx groupIdx dirs processed koFile
                  koMeta).map Prod.fst = some d
                simpa using h5
          · right
            rcases h3 with ⟨p, hp, hor⟩
            exact ⟨p, List.mem_cons_of_mem _ hp, hor⟩

/-! ## Membership characterizations -/

theorem mem_allFilesOf_keys (fs : List (String × RawMeta)) (x : String) :
    x ∈ (allFilesOf fs).map Prod.fst ↔
      ∃ r, (x, r) ∈ fs ∧ (parse_markdown_file x r).isSome = true := by
  unfold allFilesOf
  constructor
  · intro h
    rcases List.mem_map.mp h with ⟨pm, hpm, hfst⟩
    rcases List.mem_filterMap.mp hpm with ⟨pr, hpr, hsome⟩
    rcases Option.map_eq_some'.mp hsome with ⟨m, hm, hpm2⟩
    have hx : pr.1 = x := by rw [← hfst, ← hpm2]
    refine ⟨pr.2, ?_, ?_⟩
    · rw [← hx]
      exact hpr
    · rw [← hx, hm]
      rfl
  · intro h
    rcases h with ⟨r, hmem, hsome⟩
    rcases Option.isSome_iff_exists.mp hsome with ⟨m, hm⟩
    apply List.mem_map.mpr
    refine ⟨(x, m), ?_, rfl⟩
    apply List.mem_filterMap.mpr
    refine ⟨(x, r), hmem, ?_⟩
    rw [hm]
    rfl

theorem allFilesOf_keys_subset (fs : List (String × RawMeta)) (x : String)
    (h : x ∈ (allFilesOf fs).map Prod.fst) : x ∈ fs.map Prod.fst := by
  rcases (mem_allFilesOf_keys fs x).mp h with ⟨r, hmem, _⟩
  exact List.mem_map_of_mem Prod.fst hmem

theorem appearsIn_mem_keys (fs : List (String × RawMeta)) (dirs : List String) (d : String)
    (h : appearsIn d (collect_language_pairs fs dirs)) :
    d ∈ (allFilesOf fs).map Prod.fst := by
  rcases h with ⟨p, hp, hor⟩
  simp only [collect_language_pairs] at hp
  have hfacts := collectAux_facts (allFilesOf fs) (postIdxOf (allFilesOf fs))
    (groupIdxOf (allFilesOf fs)) dirs
    (fun m x hx => postIdxOf_mem_keys _ m x hx)
    (fun g x hx => groupIdxOf_mem_keys _ g x hx)
    (allFilesOf fs) [] p hp
  rcases hor with h1 | h1
  · rcases hfacts.1 with ⟨m, hm, _⟩
    rw [← h1]
    exact List.mem_map_of_mem Prod.fst hm
  · exact (hfacts.2.2.2 d h1).1

/-! ## Concrete document sets used as witnesses and counterexamples -/

/-- An eligible document with no ids and no group. -/
def rawPub : RawMeta :=
  { hasPublish := true, publish := true, title := none, wpPostId := none,
    mirrorPostId := none, groupId := none }

/-- A document with `publish: false`. -/
def rawOff : RawMeta := { rawPub with publish := false }

/-- An eligible document carrying a group id. -/
def rawGrp (g : String) : RawMeta := { rawPub with groupId := some g }

/-- An eligible document already carrying a WordPress post id. -/
def rawWithId (i : Nat) : RawMeta := { rawPub with wpPostId := some i }

/-- One eligible primary-language document. -/
def fsKo : List (String × RawMeta) := [("k/a.md", rawPub)]

/-- One eligible document inside the secondary-language directory. -/
def fsEn : List (String × RawMeta) := [("k/english/e.md", rawPub)]

/-- An eligible pair plus one ineligible document. -/
def fs9 : List (String × RawMeta) := [("k/a.md", rawPub), ("k/b.md", rawOff)]

/-- A primary with a group match in the secondary directory, a second group
candidate, and a conflicting positional-convention candidate. -/
def fs5 : List (String × RawMeta) :=
  [ ("k/a.md", rawGrp "g"),
    ("k/english/a.md", rawPub),
    ("k/english/e1.md", rawGrp "g"),
    ("k/english/e2.md", rawGrp "g") ]

def dirs5 : List String := ["k/english"]

/-- The parsed metadata of `k/a.md` in `fs5`. -/
def koMeta5 : PMeta :=
  { title := "a", publish := true, wpPostId := none, mirrorPostId := none,
    groupId := some "g" }

/-- One already-published non-secondary document, target of a mirror id. -/
def fs10 : List (String × RawMeta) := [("k/b.md", rawWithId 5)]

/-- A primary whose only pairing signal is `mirror_post_id = 5`. -/
def koMeta10 : PMeta :=
  { title := "x", publish := true, wpPostId := none, mirrorPostId := some 5,
    groupId := none }

/-! ## Claim C1: the pair list as a partition of the eligible set -/

/-- Claim C1, counterexample: a single eligible document lying in a
secondary-language directory is in the eligible input set but the resolver
returns an empty pair list, so the document appears in zero pairs, not
exactly one. -/
theorem collect_pairs_partition_fails :
    "k/english/e.md" ∈ eligibleFiles fsEn ∧
    collect_language_pairs fsEn [] = [] := by
  constructor
  · decide
  · decide

/-- Claim C1, amended: every pair's primary is an eligible document outside
the secondary-language naming convention, the primaries of distinct pairs
are distinct, and every eligible document outside the secondary-language
convention appears in at least one pair.  (Eligible documents inside
secondary-language directories may appear in zero pairs when unmatched,
and the mirror-id strategy may select an already-consumed document, so the
output is not an exact partition of the eligible set.) -/
theorem collect_pairs_coverage (fs : List (String × RawMeta)) (dirs : List String) :
    (∀ p ∈ collect_language_pairs fs dirs,
      p.koFile ∈ eligibleFiles fs ∧ isEnglishPath p.koFile = false) ∧
    ((collect_language_pairs fs dirs).map (fun p => p.koFile)).Nodup ∧
    (∀ d ∈ eligibleFiles fs, isEnglishPath d = false →
      appearsIn d (collect_language_pairs fs dirs)) := by
  refine ⟨?_, ?_, ?_⟩
  · intro p hp
    simp only [collect_language_pairs] at hp
    have h := collectAux_facts (allFilesOf fs) (postIdxOf (allFilesOf fs))
      (groupIdxOf (allFilesOf fs)) dirs
      (fun m x hx => postIdxOf_mem_keys _ m x hx)
      (fun g x hx => groupIdxOf_mem_keys _ g x hx)
      (allFilesOf fs) [] p hp
    constructor
    · rcases h.1 with ⟨m, hm, _⟩
      exact List.mem_map_of_mem Prod.fst hm
    · exact h.2.1
  · simp only [collect_language_pairs]
    exact collectAux_nodup (allFilesOf fs) (postIdxOf (allFilesOf fs))
      (groupIdxOf (allFilesOf fs)) dirs
      (fun m x hx => postIdxOf_mem_keys _ m x hx)
      (fun g x hx => groupIdxOf_mem_keys _ g x hx)
      (allFilesOf fs) []
  · intro d hd hEng
    simp only [collect_language_pairs]
    rcases collectAux_covers (allFilesOf fs) (postIdxOf (allFilesOf fs))
        (groupIdxOf (allFilesOf fs)) dirs (allFilesOf fs) [] d hd hEng with h | h
    · simp at h
    · exact h

/-- Claim C1 witness: in a one-document set the document appears in a pair. -/
theorem collect_pairs_coverage_witness :
    appearsIn "k/a.md" (collect_language_pairs fsKo []) :=
  (collect_pairs_coverage fsKo []).2.2 "k/a.md" (by decide) (by decide)

/-! ## Claim C9: ineligible documents never participate -/

/-- Claim C9: a document whose metadata lacks the `publish` key or whose
`publish` value is falsy is rejected by `parse_markdown_file`, is absent
from the eligible set and from both pairing indices, and appears in no
pair. -/
theorem ineligible_document_excluded
    (fs : List (String × RawMeta)) (dirs : List String) (f : String) (r : RawMeta)
    (hN : (fs.map Prod.fst).Nodup)
    (hmem : (f, r) ∈ fs)
    (hflag : r.hasPublish = false ∨ r.publish = false) :
    parse_markdown_file f r = none ∧
    f ∉ (allFilesOf fs).map Prod.fst ∧
    (∀ g, f ∉ groupIdxOf (allFilesOf fs) g) ∧
    (∀ i, postIdxOf (allFilesOf fs) i ≠ some f) ∧
    ¬appearsIn f (collect_language_pairs fs dirs) := by
  have hparse : parse_markdown_file f r = none := by
    rcases hflag with h | h <;> simp [parse_markdown_file, h]
  have hkeys : f ∉ (allFilesOf fs).map Prod.fst := by
    intro hk
    rcases (mem_allFilesOf_keys fs f).mp hk with ⟨r2, hr2mem, hr2some⟩
    have : r = r2 := snd_unique_of_nodup fs f r r2 hN hmem hr2mem
    rw [← this, hparse] at hr2some
    simp at hr2some
  refine ⟨hparse, hkeys, ?_, ?_, ?_⟩
  · intro g hg
    exact hkeys (groupIdxOf_mem_keys _ g f hg)
  · intro i hi
    exact hkeys (postIdxOf_mem_keys _ i f hi)
  · intro happ
    exact hkeys (appearsIn_mem_keys fs dirs f happ)

/-- Claim C9 witness: the `publish: false` document of `fs9` appears in no
pair. -/
theorem ineligible_document_excluded_witness :
    ¬appearsIn "k/b.md" (collect_language_pairs fs9 []) :=
  (ineligible_document_excluded fs9 [] "k/b.md" rawOff (by decide) (by decide)
    (Or.inr rfl)).2.2.2.2

/-! ## Claim C5: strategy priority and the discovery-order tie-break -/

/-- Claim C5: when the primary carries a truthy group id and the
discovery-order list of eligible group-mates that are different files in a
secondary-language directory and unconsumed has a first element, that first
element is chosen as the secondary, even when a positional-convention
candidate (the identically named file in the adjacent `english` directory)
exists, is eligible, and is a different file. -/
theorem strategy_priority_group_id
    (fs : List (String × RawMeta)) (dirs processed : List String)
    (koFile : String) (koMeta : PMeta) (g c : String)
    (hg : truthyGroup koMeta.groupId = some g)
    (hc : (((allFilesOf fs).filter
        (fun pm => truthyGroup pm.2.groupId == some g)).map Prod.fst).find?
        (fun cand => cand != koFile && isEnglishPath cand
          && !processed.contains cand) = some c)
    (hposIn : (lookupMeta (allFilesOf fs) (enCandidate koFile)).isSome = true)
    (hdiff : enCandidate koFile ≠ c) :
    (chooseSecondary (allFilesOf fs) (postIdxOf (allFilesOf fs))
        (groupIdxOf (allFilesOf fs)) dirs processed koFile koMeta).map Prod.fst
      = some c := by
  have hs1 : strategyGroupId (groupIdxOf (allFilesOf fs)) processed koFile koMeta
      = some c := by
    rw [strategyGroupId, hg]
    show (groupIdxOf (allFilesOf fs) g).find?
      (fun cand => cand != koFile && isEnglishPath cand && !processed.contains cand) = some c
    rw [groupIdxOf_eq_filter]
    exact hc
  rw [chooseSecondary, hs1]
  rfl

/-- Claim C5 witness: in `fs5`, the primary `k/a.md` has group candidates
`k/english/e1.md` and `k/english/e2.md` plus the positional candidate
`k/english/a.md`; the first group candidate in discovery order wins. -/
theorem strategy_priority_group_id_witness :
    (chooseSecondary (allFilesOf fs5) (postIdxOf (allFilesOf fs5))
        (groupIdxOf (allFilesOf fs5)) dirs5 [] "k/a.md" koMeta5).map Prod.fst
      = some "k/english/e1.md" :=
  strategy_priority_group_id fs5 dirs5 [] "k/a.md" koMeta5 "g" "k/english/e1.md"
    (by decide) (by decide) (by decide) (by decide)

/-! ## Claim C10: the stored-mirror-id fallback -/

/-- Claim C10: when the group strategy produces nothing and the primary's
truthy `mirror_post_id` is a key of the post-id index, the indexed file is
chosen as the secondary together with its stored post id — even when that
file is not in a secondary-language directory and has already been consumed
by an earlier pair; the chosen file is an eligible document. -/
theorem mirror_strategy_ignores_checks
    (fs : List (String × RawMeta)) (dirs processed : List String)
    (koFile : String) (koMeta : PMeta) (m : Nat) (f : String)
    (h1 : strategyGroupId (groupIdxOf (allFilesOf fs)) processed koFile koMeta = none)
    (h2 : truthyId koMeta.mirrorPostId = some m)
    (h3 : postIdxOf (allFilesOf fs) m = some f)
    (h4 : isEnglishPath f = false)
    (h5 : f ∈ processed) :
    chooseSecondary (allFilesOf fs) (postIdxOf (allFilesOf fs))
        (groupIdxOf (allFilesOf fs)) dirs processed koFile koMeta =
      some (f, (lookupMeta (allFilesOf fs) f).bind (fun mm => mm.wpPostId)) ∧
    f ∈ (allFilesOf fs).map Prod.fst := by
  constructor
  · have hs2 : strategyMirrorId (allFilesOf fs) (postIdxOf (allFilesOf fs)) koMeta =
        some (f, (lookupMeta (allFilesOf fs) f).bind (fun mm => mm.wpPostId)) := by
      simp only [strategyMirrorId, h2, h3]
    rw [chooseSecondary, h1, hs2]
  · exact postIdxOf_mem_keys _ m f h3

/-- Claim C10 witness: the mirror id 5 of `koMeta10` selects the
non-secondary, already-consumed document `k/b.md` of `fs10`. -/
theorem mirror_strategy_ignores_checks_witness :
    chooseSecondary (allFilesOf fs10) (postIdxOf (allFilesOf fs10))
        (groupIdxOf (allFilesOf fs10)) [] ["k/b.md"] "k/a.md" koMeta10 =
      some ("k/b.md",
        (lookupMeta (allFilesOf fs10) "k/b.md").bind (fun mm => mm.wpPostId)) :=
  (mirror_strategy_ignores_checks fs10 [] ["k/b.md"] "k/a.md" koMeta10 5 "k/b.md"
    (by decide) (by decide) (by decide) (by decide) (by decide)).1

/-! ## Claim C8: `get_markdown_files` -/

/-- The directory reached from `root` through the subdirectory names `ds`. -/
def joinAll (root : String) (ds : List String) : String := ds.foldl joinPath root

theorem takeWhile_eq_self {p : Char → Bool} (l : List Char) (h : ∀ c ∈ l, p c = true) :
    l.takeWhile p = l := by
  induction l with
  | nil => rfl
  | cons c cs ih =>
    rw [List.takeWhile_cons, h c (List.mem_cons_self c cs)]
    simp [ih (fun c hc => h c (List.mem_cons_of_mem _ hc))]

theorem listBasename_append (ds fs : List Char)
    (hf : ∀ c ∈ fs, (c != '/') = true)
    (hd : ds = [] ∨ ∃ t, ds = t ++ ['/']) :
    ((ds ++ fs).reverse.takeWhile (fun c => c != '/')).reverse = fs := by
  rcases hd with hd | ⟨t, hd⟩
  · subst hd
    simp only [List.nil_append]
    rw [takeWhile_eq_self fs.reverse (fun c hc => hf c (List.mem_reverse.mp hc))]
    exact List.reverse_reverse fs
  · subst hd
    rw [List.reverse_append, List.reverse_append]
    simp only [List.reverse_cons, List.reverse_nil, List.nil_append, List.cons_append]
    have hfull : (fs.reverse.takeWhile (fun c => c != '/')).length = fs.reverse.length := by
      rw [takeWhile_eq_self fs.reverse (fun c hc => hf c (List.mem_reverse.mp hc))]
    rw [List.takeWhile_append, if_pos hfull]
    rw [List.takeWhile_cons]
    simp

theorem toList_append (s t : String) : (s ++ t).toList = s.toList ++ t.toList := by
  simp [String.toList, String.data_append]

theorem strStarts_slash_mem (f : String) (h : strStarts f "/" = true) : '/' ∈ f.toList := by
  unfold strStarts at h
  cases hf : f.toList with
  | nil => rw [hf] at h; simp [listStarts] at h
  | cons c cs =>
    rw [hf] at h
    have : ("/".toList) = ['/'] := rfl
    rw [this, listStarts] at h
    have := (Bool.and_eq_true _ _).mp h
    have hc : ('/' : Char) = c := eq_of_beq this.1
    rw [← hc]
    exact List.mem_cons_self _ _

theorem strEnds_slash_shape (d : String) (h : strEnds d "/" = true) :
    ∃ t, d.toList = t ++ ['/'] := by
  unfold strEnds at h
  cases hd : d.toList.reverse with
  | nil => rw [hd] at h; simp [listStarts] at h
  | cons c cs =>
    rw [hd] at h
    have : ("/".toList.reverse) = ['/'] := rfl
    rw [this, listStarts] at h
    have := (Bool.and_eq_true _ _).mp h
    have hc : ('/' : Char) = c := eq_of_beq this.1
    refine ⟨cs.reverse, ?_⟩
    have : d.toList.reverse.reverse = (c :: cs).reverse := by rw [hd]
    rw [List.reverse_reverse] at this
    rw [this, List.reverse_cons, ← hc]

theorem basename_joinPath (d f : String) (hf : '/' ∉ f.toList) :
    basename (joinPath d f) = f := by
  have hfall : ∀ c ∈ f.toList, (c != '/') = true := by
    intro c hc
    have hne : c ≠ '/' := fun h => hf (h ▸ hc)
    simpa using hne
  unfold joinPath
  split_ifs with h1 h2
  · exact absurd (strStarts_slash_mem f h1) hf
  · unfold basename
    rw [toList_append]
    have hd : d.toList = [] ∨ ∃ t, d.toList = t ++ ['/'] := by
      rcases (Bool.or_eq_true _ _).mp h2 with ha | hb
      · left
        have : d = "" := by simpa using ha
        rw [this]
        rfl
      · exact Or.inr (strEnds_slash_shape d hb)
    rw [listBasename_append d.toList f.toList hfall hd]
    rfl
  · unfold basename
    rw [toList_append, toList_append]
    have h3 : ("/" : String).toList = ['/'] := rfl
    rw [h3]
    rw [listBasename_append (d.toList ++ ['/']) f.toList hfall (Or.inr ⟨d.toList, rfl⟩)]
    rfl

theorem mem_walkSubdirs (sds : List (String × DirTree)) (path : String)
    (excl : List String) (p : String) :
    p ∈ walkSubdirs path excl sds ↔
      ∃ sd ∈ sds, sd.1 ∉ excl ∧ p ∈ walkCollect (joinPath path sd.1) excl sd.2 := by
  induction sds with
  | nil => simp [walkSubdirs]
  | cons sd rest ih =>
    obtain ⟨name, t⟩ := sd
    rw [walkSubdirs]
    rw [List.mem_append]
    constructor
    · intro h
      rcases h with h | h
      · by_cases hx : excl.contains name
        · rw [if_pos hx] at h
          simp at h
        · rw [if_neg hx] at h
          exact ⟨(name, t), List.mem_cons_self _ _,
            fun hmem => hx ((contains_iff excl name).mpr hmem), h⟩
      · rcases ih.mp h with ⟨sd2, hsd2, hx2, hp2⟩
        exact ⟨sd2, List.mem_cons_of_mem _ hsd2, hx2, hp2⟩
    · intro ⟨sd2, hsd2, hx2, hp2⟩
      rcases List.mem_cons.mp hsd2 with hh | ht
      · left
        subst hh
        rw [if_neg (fun hx => hx2 ((contains_iff excl name).mp hx))]
        exact hp2
      · right
        exact ih.mpr ⟨sd2, ht, hx2, hp2⟩

theorem walk_sound_fuel : ∀ (n : Nat) (t : DirTree), sizeOf t ≤ n →
    ∀ (path : String) (excl : List String), ∀ p ∈ walkCollect path excl t,
      ∃ ds f, (∀ d ∈ ds, d ∉ excl) ∧ strEnds f ".md" = true ∧
        strStarts f "." = false ∧ p = joinPath (joinAll path ds) f := by
  intro n
  induction n with
  | zero =>
    intro t h
    exfalso
    cases t with
    | node files subdirs =>
      simp [DirTree.node.sizeOf_spec] at h
  | succ n ih =>
    intro t hsize path excl p hp
    cases t with
    | node files subdirs =>
      rw [walkCollect] at hp
      rcases List.mem_append.mp hp with h1 | h2
      · rcases List.mem_filterMap.mp h1 with ⟨f, hf, hsome⟩
        split_ifs at hsome with hcond
        have hp2 : joinPath path f = p := Option.some_inj.mp hsome
        refine ⟨[], f, by simp, ((Bool.and_eq_true _ _).mp hcond).1, ?_, ?_⟩
        · have := ((Bool.and_eq_true _ _).mp hcond).2
          simpa using this
        · rw [← hp2]
          rfl
      · rcases (mem_walkSubdirs subdirs path excl p).mp h2 with ⟨sd, hsd, hnx, hpw⟩
        have hsz : sizeOf sd.2 ≤ n := by
          have ha : sizeOf sd < sizeOf subdirs := List.sizeOf_lt_of_mem hsd
          have hb : sizeOf sd.2 < sizeOf sd := by
            obtain ⟨nm, t2⟩ := sd
            simp
          simp [DirTree.node.sizeOf_spec] at hsize
          omega
        rcases ih sd.2 hsz (joinPath path sd.1) excl p hpw with ⟨ds, f, hds, hmd, hdot, heq⟩
        refine ⟨sd.1 :: ds, f, ?_, hmd, hdot, ?_⟩
        · intro d hd
          rcases List.mem_cons.mp hd with hh | ht
          · rw [hh]
            exact hnx
          · exact hds d ht
        · rw [heq]
          rfl

/-- Claim C8: `get_markdown_files` returns a lexicographically sorted list
in which every path is a pruned-walk result: it is built from the root by a
chain of subdirectory names none of which is in the exclusion set (default
`templates`, `drafts`, `.obsidian`), ending in a file name that carries the
`.md` extension and is not hidden; when that file name contains no slash it
is exactly the basename of the returned path.  Determinism over an
unchanged tree holds because the embedded function is pure and the final
sort fixes the order. -/
theorem get_markdown_files_spec (folderPath : String) (tree : DirTree)
    (exclOpt : Option (List String)) :
    List.Sorted pathLe (get_markdown_files folderPath tree exclOpt) ∧
    (∀ p ∈ get_markdown_files folderPath tree exclOpt,
      ∃ ds f, (∀ d ∈ ds, d ∉ exclOpt.getD ["templates", "drafts", ".obsidian"]) ∧
        strEnds f ".md" = true ∧ strStarts f "." = false ∧
        p = joinPath (joinAll folderPath ds) f ∧
        ('/' ∉ f.toList → basename p = f)) := by
  constructor
  · simp only [get_markdown_files]
    exact List.sorted_insertionSort pathLe _
  · intro p hp
    simp only [get_markdown_files] at hp
    have hp2 : p ∈ walkCollect folderPath
        (exclOpt.getD ["templates", "drafts", ".obsidian"]) tree :=
      (List.perm_insertionSort pathLe _).mem_iff.mp hp
    rcases walk_sound_fuel (sizeOf tree) tree le_rfl folderPath _ p hp2 with
      ⟨ds, f, hds, hmd, hdot, heq⟩
    refine ⟨ds, f, hds, hmd, hdot, heq, ?_⟩
    intro hslash
    rw [heq]
    exact basename_joinPath _ f hslash

/-- A small tree with a hidden file, a non-markdown file, an excluded
subdirectory and a nested language directory. -/
def tree1 : DirTree :=
  DirTree.node ["b.md", "a.md", ".hidden.md", "c.txt"]
    [ ("drafts", DirTree.node ["d.md"] []),
      ("english", DirTree.node ["e.md"] []) ]

/-- Claim C8 witness: the walk of `tree1` from root `k` skips the hidden
file, the `.txt` file and the `drafts` subtree, and returns sorted paths. -/
theorem get_markdown_files_spec_witness :
    get_markdown_files "k" tree1 none = ["k/a.md", "k/b.md", "k/english/e.md"] ∧
    List.Sorted pathLe (get_markdown_files "k" tree1 none) :=
  ⟨by decide, (get_markdown_files_spec "k" tree1 none).1⟩

/-! ## Claim C4: failure containment in `process_pairs` -/

theorem processOne_ko_fail (st : StepState) (pair : Pair) (orc : PairOracle)
    (h : orc.koOk = false) :
    (processOne st pair orc).1 = [PubAction.publishPost Side.ko (endpointFor pair.koId)] := by
  unfold processOne serverPublish
  rw [h]
  simp

theorem processOne_en_fail (st : StepState) (pair : Pair) (orc : PairOracle)
    (hko : orc.koOk = true) (h : orc.enOk = false) :
    (∀ f v, PubAction.saveMeta Side.en f v ∉ (processOne st pair orc).1) ∧
    (∀ a b, PubAction.linkTranslations a b ∉ (processOne st pair orc).1) := by
  cases hk : truthyId pair.koId with
  | none =>
    cases he : pair.enFile with
    | none =>
      cases hc : orc.koCover <;>
        simp [processOne, serverPublish, hko, h, hk, he, hc]
    | some ef =>
      cases hc : orc.koCover <;>
        simp [processOne, serverPublish, hko, h, hk, he, hc]
  | some i =>
    cases he : pair.enFile with
    | none =>
      cases hc : orc.koCover <;>
        simp [processOne, serverPublish, hko, h, hk, he, hc]
    | some ef =>
      cases hc : orc.koCover <;>
        simp [processOne, serverPublish, hko, h, hk, he, hc]

theorem process_pairs_cons (st : StepState) (p : Pair) (ps : List Pair)
    (o : PairOracle) (os : List PairOracle) :
    process_pairs st (p :: ps) (o :: os) =
      ((processOne st p o).1 :: (process_pairs (processOne st p o).2 ps os).1,
        (process_pairs (processOne st p o).2 ps os).2) := by
  rw [process_pairs]

/-- Claim C4: a failed primary publish produces a per-pair trace that stops
at the publish step — in particular no metadata write happens for that pair
at all; a failed secondary publish produces a trace with no secondary-side
metadata write and no translation link; and every pair in the list gets its
own trace (one per pair), so later pairs are still processed. -/
theorem failed_publish_containment (pairs : List Pair) (orcs : List PairOracle)
    (st : StepState) (hlen : orcs.length = pairs.length) :
    (process_pairs st pairs orcs).1.length = pairs.length ∧
    (∀ (i : Nat) (pair : Pair) (orc : PairOracle),
      pairs[i]? = some pair → orcs[i]? = some orc →
      ∃ t, (process_pairs st pairs orcs).1[i]? = some t ∧
        (orc.koOk = false → t = [PubAction.publishPost Side.ko (endpointFor pair.koId)]) ∧
        (orc.koOk = true → orc.enOk = false →
          (∀ f v, PubAction.saveMeta Side.en f v ∉ t) ∧
          (∀ a b, PubAction.linkTranslations a b ∉ t))) := by
  induction pairs generalizing orcs st with
  | nil =>
    constructor
    · cases orcs <;> simp [process_pairs]
    · intro i pair orc hp _
      simp at hp
  | cons p ps ih =>
    cases orcs with
    | nil => simp at hlen
    | cons o os =>
      have hlen2 : os.length = ps.length := by simpa using hlen
      rw [process_pairs_cons]
      constructor
      · simp
        exact (ih os _ hlen2).1
      · intro i pair orc hp ho
        cases i with
        | zero =>
          simp at hp ho
          subst hp
          subst ho
          refine ⟨(processOne st p o).1, by simp, ?_, ?_⟩
          · intro hko
            exact processOne_ko_fail st p o hko
          · intro hko hen
            exact processOne_en_fail st p o hko hen
        | succ j =>
          simp only [List.getElem?_cons_succ] at hp ho ⊢
          exact (ih os _ hlen2).2 j pair orc hp ho

/-- Claim C4 witness: with two monolingual pairs where the first primary
publish fails, the first trace stops at the publish step and the second
pair is still processed. -/
theorem failed_publish_containment_witness :
    (process_pairs { fs := [], srv := { nextId := 1, created := 0 }, failed := 0 }
        [ { title := "a", koFile := "k/a.md", enFile := none, koId := none, enId := none },
          { title := "b", koFile := "k/b.md", enFile := none, koId := none, enId := none } ]
        [ { koOk := false, koCover := false, enOk := true, enCover := false, linkOk := true },
          allOk ]).1.length = 2 :=
  (failed_publish_containment
    [ { title := "a", koFile := "k/a.md", enFile := none, koId := none, enId := none },
      { title := "b", koFile := "k/b.md", enFile := none, koId := none, enId := none } ]
    [ { koOk := false, koCover := false, enOk := true, enCover := false, linkOk := true },
      allOk ]
    { fs := [], srv := { nextId := 1, created := 0 }, failed := 0 } (by decide)).1

/-! ## Claim C2: idempotence machinery

The second reconciliation run pairs the documents again over a filesystem
whose only difference is the written-back `wp-post-id` values.  The lemmas
below show the pairing is unchanged (as long as no document carries a
truthy `mirror_post_id`), that the first run leaves a positive stored id on
every pair member, and that pairs whose stored ids are truthy are processed
entirely through the update endpoint. -/

/-- The parts of a pair that identify the paired files. -/
def pairShape (p : Pair) : String × Option String := (p.koFile, p.enFile)

/-- The parts of the raw metadata that the pairing strategies other than
the mirror-id strategy can observe. -/
def rawShape (fs : List (String × RawMeta)) : List (String × Bool × Bool × Option String) :=
  fs.map (fun pr => (pr.1, pr.2.hasPublish, pr.2.publish, truthyGroup pr.2.groupId))

/-- The parts of the parsed metadata those strategies can observe. -/
def metaShape (files : List (String × PMeta)) : List (String × Option String) :=
  files.map (fun pm => (pm.1, truthyGroup pm.2.groupId))

theorem parse_fields (p : String) (r : RawMeta) (m : PMeta)
    (h : parse_markdown_file p r = some m) :
    m.wpPostId = r.wpPostId ∧ m.mirrorPostId = r.mirrorPostId ∧ m.groupId = r.groupId := by
  unfold parse_markdown_file at h
  split_ifs at h
  have hm := Option.some_inj.mp h
  rw [← hm]
  exact ⟨rfl, rfl, rfl⟩

theorem parse_isSome_iff (p : String) (r : RawMeta) :
    (parse_markdown_file p r).isSome = (r.hasPublish && r.publish) := by
  unfold parse_markdown_file
  cases h1 : r.hasPublish <;> cases h2 : r.publish <;> simp

theorem allFilesOf_metaShape (fs1 fs2 : List (String × RawMeta))
    (h : rawShape fs1 = rawShape fs2) :
    metaShape (allFilesOf fs1) = metaShape (allFilesOf fs2) := by
  induction fs1 generalizing fs2 with
  | nil =>
    cases fs2 with
    | nil => rfl
    | cons b t => simp [rawShape] at h
  | cons a t1 ih =>
    cases fs2 with
    | nil => simp [rawShape] at h
    | cons b t2 =>
      simp only [rawShape, List.map_cons, List.cons.injEq] at h
      obtain ⟨⟨hk, hhp, hpb, hgr⟩, htail⟩ :
          (a.1 = b.1 ∧ a.2.hasPublish = b.2.hasPublish ∧ a.2.publish = b.2.publish ∧
            truthyGroup a.2.groupId = truthyGroup b.2.groupId) ∧
          rawShape t1 = rawShape t2 := by
        constructor
        · have := h.1
          simp only [Prod.mk.injEq] at this
          exact ⟨this.1, this.2.1, this.2.2.1, this.2.2.2⟩
        · exact h.2
      simp only [allFilesOf, List.filterMap_cons]
      cases hp1 : parse_markdown_file a.1 a.2 with
      | none =>
        have hp2 : parse_markdown_file b.1 b.2 = none := by
          have h1 : (parse_markdown_file a.1 a.2).isSome = false := by rw [hp1]; rfl
          rw [parse_isSome_iff] at h1
          have h2 : (parse_markdown_file b.1 b.2).isSome = false := by
            rw [parse_isSome_iff, ← hhp, ← hpb]
            exact h1
          exact Option.not_isSome_iff_eq_none.mp (by rw [h2]; simp)
        rw [hp2]
        simp only [Option.map_none']
        exact ih t2 htail
      | some m1 =>
        cases hp2 : parse_markdown_file b.1 b.2 with
        | none =>
          exfalso
          have h1 : (parse_markdown_file a.1 a.2).isSome = true := by rw [hp1]; rfl
          rw [parse_isSome_iff] at h1
          have h2 : (parse_markdown_file b.1 b.2).isSome = true := by
            rw [parse_isSome_iff, ← hhp, ← hpb]
            exact h1
          rw [hp2] at h2
          simp at h2
        | some m2 =>
          have hg1 := (parse_fields a.1 a.2 m1 hp1).2.2
          have hg2 := (parse_fields b.1 b.2 m2 hp2).2.2
          have htl := ih t2 htail
          simp only [metaShape] at htl
          simp only [Option.map_some', metaShape, List.map_cons, List.cons.injEq]
          refine ⟨?_, htl⟩
          simp only [Prod.mk.injEq]
          exact ⟨hk, by rw [hg1, hg2, hgr]⟩

theorem allFilesOf_mirrorFree (fs : List (String × RawMeta))
    (h : ∀ pr ∈ fs, truthyId pr.2.mirrorPostId = none) :
    ∀ pm ∈ allFilesOf fs, truthyId pm.2.mirrorPostId = none := by
  intro pm hpm
  rcases List.mem_filterMap.mp hpm with ⟨pr, hpr, hsome⟩
  rcases Option.map_eq_some'.mp hsome with ⟨m, hm, hpm2⟩
  have := (parse_fields pr.1 pr.2 m hm).2.1
  rw [← hpm2]
  show truthyId m.mirrorPostId = none
  rw [this]
  exact h pr hpr

theorem keys_of_metaShape (f1 f2 : List (String × PMeta))
    (h : metaShape f1 = metaShape f2) : f1.map Prod.fst = f2.map Prod.fst := by
  have := congrArg (List.map Prod.fst) h
  simpa [metaShape, List.map_map, Function.comp] using this

theorem groupIdxOf_congr (f1 f2 : List (String × PMeta))
    (h : metaShape f1 = metaShape f2) : ∀ g, groupIdxOf f1 g = groupIdxOf f2 g := by
  intro g
  rw [groupIdxOf_eq_filter, groupIdxOf_eq_filter]
  have key : ∀ (f : List (String × PMeta)),
      (f.filter (fun pm => truthyGroup pm.2.groupId == some g)).map Prod.fst =
      ((metaShape f).filter (fun x => x.2 == some g)).map Prod.fst := by
    intro f
    induction f with
    | nil => rfl
    | cons pm rest ihf =>
      rw [metaShape, List.map_cons, List.filter_cons, List.filter_cons]
      by_cases hc : (truthyGroup pm.2.groupId == some g) = true
      · rw [if_pos hc, if_pos (by simpa using hc)]
        rw [List.map_cons, List.map_cons]
        rw [ihf]
        rfl
      · rw [if_neg hc, if_neg (by simpa using hc)]
        exact ihf
  rw [key f1, key f2, h]

theorem lookupMeta_isSome_iff (files : List (String × PMeta)) (c : String) :
    (lookupMeta files c).isSome = true ↔ c ∈ files.map Prod.fst :=
  lookup_isSome_iff files c

theorem lookupMeta_isSome_congr (f1 f2 : List (String × PMeta))
    (hkeys : f1.map Prod.fst = f2.map Prod.fst) (c : String) :
    (lookupMeta f1 c).isSome = (lookupMeta f2 c).isSome := by
  cases hb : (lookupMeta f2 c).isSome
  · cases hb1 : (lookupMeta f1 c).isSome
    · rfl
    · exfalso
      have h1 := (lookupMeta_isSome_iff f1 c).mp hb1
      rw [hkeys] at h1
      have h2 := (lookupMeta_isSome_iff f2 c).mpr h1
      rw [hb] at h2
      exact Bool.false_ne_true h2
  · cases hb1 : (lookupMeta f1 c).isSome
    · exfalso
      have h1 := (lookupMeta_isSome_iff f2 c).mp hb
      rw [← hkeys] at h1
      have h2 := (lookupMeta_isSome_iff f1 c).mpr h1
      rw [hb1] at h2
      exact Bool.false_ne_true h2
    · rfl

theorem strategyGroupId_congr (G1 G2 : String → List String)
    (hG : ∀ g, G1 g = G2 g) (processed : List String) (koFile : String)
    (m1 m2 : PMeta) (hm : truthyGroup m1.groupId = truthyGroup m2.groupId) :
    strategyGroupId G1 processed koFile m1 = strategyGroupId G2 processed koFile m2 := by
  unfold strategyGroupId
  rw [hm]
  cases h : truthyGroup m2.groupId with
  | none => rfl
  | some g =>
    simp only []
    rw [hG g]

theorem strategyFolder_fst_congr (f1 f2 : List (String × PMeta))
    (hkeys : f1.map Prod.fst = f2.map Prod.fst) (dirs processed : List String)
    (koFile : String) :
    (strategyFolder f1 dirs processed koFile).map Prod.fst =
    (strategyFolder f2 dirs processed koFile).map Prod.fst := by
  unfold strategyFolder
  rw [lookupMeta_isSome_congr f1 f2 hkeys (enCandidate koFile)]
  split_ifs <;> rfl

theorem chooseSecondary_fst_congr (f1 f2 : List (String × PMeta))
    (P1 P2 : Nat → Option String) (dirs processed : List String) (koFile : String)
    (m1 m2 : PMeta)
    (hkeys : f1.map Prod.fst = f2.map Prod.fst)
    (hG : ∀ g, groupIdxOf f1 g = groupIdxOf f2 g)
    (hm : truthyGroup m1.groupId = truthyGroup m2.groupId)
    (hmir1 : truthyId m1.mirrorPostId = none)
    (hmir2 : truthyId m2.mirrorPostId = none) :
    (chooseSecondary f1 P1 (groupIdxOf f1) dirs processed koFile m1).map Prod.fst =
    (chooseSecondary f2 P2 (groupIdxOf f2) dirs processed koFile m2).map Prod.fst := by
  unfold chooseSecondary
  rw [strategyGroupId_congr (groupIdxOf f1) (groupIdxOf f2) hG processed koFile m1 m2 hm]
  cases hs : strategyGroupId (groupIdxOf f2) processed koFile m2 with
  | some c => simp
  | none =>
    simp only []
    have hm1 : strategyMirrorId f1 P1 m1 = none := by
      unfold strategyMirrorId
      rw [hmir1]
    have hm2 : strategyMirrorId f2 P2 m2 = none := by
      unfold strategyMirrorId
      rw [hmir2]
    rw [hm1, hm2]
    exact strategyFolder_fst_congr f1 f2 hkeys dirs processed koFile

theorem collectAux_shape_congr (f1 f2 : List (String × PMeta))
    (P1 P2 : Nat → Option String) (dirs : List String)
    (hkeys : f1.map Prod.fst = f2.map Prod.fst)
    (hG : ∀ g, groupIdxOf f1 g = groupIdxOf f2 g) :
    ∀ (l1 l2 : List (String × PMeta)) (processed : List String),
      metaShape l1 = metaShape l2 →
      (∀ pm ∈ l1, truthyId pm.2.mirrorPostId = none) →
      (∀ pm ∈ l2, truthyId pm.2.mirrorPostId = none) →
      (collectAux f1 P1 (groupIdxOf f1) dirs l1 processed).map pairShape =
      (collectAux f2 P2 (groupIdxOf f2) dirs l2 processed).map pairShape := by
  intro l1
  induction l1 with
  | nil =>
    intro l2 processed hshape _ _
    cases l2 with
    | nil => rfl
    | cons b t => simp [metaShape] at hshape
  | cons a t1 ih =>
    intro l2 processed hshape hmir1 hmir2
    cases l2 with
    | nil => simp [metaShape] at hshape
    | cons b t2 =>
      simp only [metaShape, List.map_cons, List.cons.injEq, Prod.mk.injEq] at hshape
      obtain ⟨⟨hk, hg⟩, htail⟩ := hshape
      obtain ⟨k1, m1⟩ := a
      obtain ⟨k2, m2⟩ := b
      simp only [] at hk hg
      subst hk
      have hmt1 : ∀ pm ∈ t1, truthyId pm.2.mirrorPostId = none :=
        fun pm hpm => hmir1 pm (List.mem_cons_of_mem _ hpm)
      have hmt2 : ∀ pm ∈ t2, truthyId pm.2.mirrorPostId = none :=
        fun pm hpm => hmir2 pm (List.mem_cons_of_mem _ hpm)
      by_cases h1 : processed.contains k1
      · rw [collectAux, if_pos h1, collectAux, if_pos h1]
        exact ih t2 processed htail hmt1 hmt2
      · by_cases h2 : isEnglishPath k1
        · rw [collectAux, if_neg h1, if_pos h2, collectAux, if_neg h1, if_pos h2]
          exact ih t2 processed htail hmt1 hmt2
        · rw [collectAux, if_neg h1, if_neg h2, collectAux, if_neg h1, if_neg h2]
          have hsec : (chooseSecondary f1 P1 (groupIdxOf f1) dirs processed k1 m1).map
              Prod.fst =
              (chooseSecondary f2 P2 (groupIdxOf f2) dirs processed k1 m2).map Prod.fst :=
            chooseSecondary_fst_congr f1 f2 P1 P2 dirs processed k1 m1 m2 hkeys hG hg
              (hmir1 (k1, m1) (List.mem_cons_self _ _))
              (hmir2 (k1, m2) (List.mem_cons_self _ _))
          rw [List.map_cons, List.map_cons]
          have hhead : pairShape (mkPair k1 m1
              (chooseSecondary f1 P1 (groupIdxOf f1) dirs processed k1 m1)) =
              pairShape (mkPair k1 m2
              (chooseSecondary f2 P2 (groupIdxOf f2) dirs processed k1 m2)) := by
            unfold pairShape mkPair
            simp only []
            rw [hsec]
          rw [hhead]
          have hproc : (processed ++ k1 :: ((chooseSecondary f1 P1 (groupIdxOf f1) dirs
              processed k1 m1).map Prod.fst).toList) =
              (processed ++ k1 :: ((chooseSecondary f2 P2 (groupIdxOf f2) dirs
              processed k1 m2).map Prod.fst).toList) := by
            rw [hsec]
          rw [hproc]
          rw [ih t2 _ htail hmt1 hmt2]

theorem collect_pairs_shape_congr (fs1 fs2 : List (String × RawMeta)) (dirs : List String)
    (hshape : rawShape fs1 = rawShape fs2)
    (hm1 : ∀ pr ∈ fs1, truthyId pr.2.mirrorPostId = none)
    (hm2 : ∀ pr ∈ fs2, truthyId pr.2.mirrorPostId = none) :
    (collect_language_pairs fs1 dirs).map pairShape =
    (collect_language_pairs fs2 dirs).map pairShape := by
  simp only [collect_language_pairs]
  have hms := allFilesOf_metaShape fs1 fs2 hshape
  exact collectAux_shape_congr (allFilesOf fs1) (allFilesOf fs2)
    (postIdxOf (allFilesOf fs1)) (postIdxOf (allFilesOf fs2)) dirs
    (keys_of_metaShape _ _ hms) (groupIdxOf_congr _ _ hms)
    (allFilesOf fs1) (allFilesOf fs2) [] hms
    (allFilesOf_mirrorFree fs1 hm1) (allFilesOf_mirrorFree fs2 hm2)

theorem setWpPostId_keys (fs : List (String × RawMeta)) (f : String) (v : Nat) :
    (setWpPostId fs f v).map Prod.fst = fs.map Prod.fst := by
  induction fs with
  | nil => rfl
  | cons pr rest ih =>
    unfold setWpPostId at *
    rw [List.map_cons, List.map_cons, List.map_cons, ih]
    by_cases h : pr.1 = f <;> simp [h]

theorem setWpPostId_rawShape (fs : List (String × RawMeta)) (f : String) (v : Nat) :
    rawShape (setWpPostId fs f v) = rawShape fs := by
  induction fs with
  | nil => rfl
  | cons pr rest ih =>
    unfold setWpPostId rawShape at *
    rw [List.map_cons, List.map_cons, List.map_cons, ih]
    by_cases h : pr.1 = f <;> simp [h]

theorem setWpPostId_mirrorFree (fs : List (String × RawMeta)) (f : String) (v : Nat)
    (h : ∀ pr ∈ fs, truthyId pr.2.mirrorPostId = none) :
    ∀ pr ∈ setWpPostId fs f v, truthyId pr.2.mirrorPostId = none := by
  intro pr hpr
  rcases List.mem_map.mp hpr with ⟨pr0, hpr0, heq⟩
  by_cases hx : pr0.1 = f
  · rw [← heq]
    simp only [if_pos hx]
    exact h pr0 hpr0
  · rw [← heq]
    simp only [if_neg hx]
    exact h pr0 hpr0

theorem lookup_setWpPostId (fs : List (String × RawMeta)) (x y : String) (v : Nat) :
    List.lookup x (setWpPostId fs y v) =
      (List.lookup x fs).map
        (fun r => if x = y then { r with wpPostId := some v } else r) := by
  induction fs with
  | nil => rfl
  | cons pr rest ih =>
    by_cases hx : x = pr.1
    · by_cases hy : pr.1 = y
      · unfold setWpPostId
        rw [List.map_cons]
        simp only [if_pos hy]
        rw [List.lookup, List.lookup]
        simp only [hx, beq_self_eq_true]
        simp [hx, hy]
      · unfold setWpPostId
        rw [List.map_cons]
        simp only [if_neg hy]
        rw [List.lookup, List.lookup]
        simp only [hx, beq_self_eq_true]
        have hxy : ¬x = y := by rw [hx]; exact hy
        simp [hxy, hy]
    · unfold setWpPostId at *
      rw [List.map_cons]
      have hfst : (if pr.1 = y then (pr.1, { pr.2 with wpPostId := some v }) else pr).1
          = pr.1 := by
        by_cases hy : pr.1 = y <;> simp [hy]
      rw [List.lookup, List.lookup]
      have hbx : (x == (if pr.1 = y then (pr.1, { pr.2 with wpPostId := some v })
          else pr).1) = false := by
        rw [hfst]
        exact beq_eq_false_iff_ne.mpr hx
      rw [hbx, beq_eq_false_iff_ne.mpr hx]
      exact ih

/-- A document whose stored id is a positive number. -/
def hasPosId (fs : List (String × RawMeta)) (x : String) : Prop :=
  ∃ r i, List.lookup x fs = some r ∧ r.wpPostId = some (i + 1)

theorem hasPosId_set_preserved (fs : List (String × RawMeta)) (x y : String) (v : Nat)
    (hv : 0 < v) (h : hasPosId fs x) : hasPosId (setWpPostId fs y v) x := by
  rcases h with ⟨r, i, hl, hr⟩
  rw [hasPosId, lookup_setWpPostId, hl]
  by_cases hx : x = y
  · rcases Nat.exists_eq_add_of_lt hv with ⟨j, hj⟩
    refine ⟨{ r with wpPostId := some v }, j, ?_, ?_⟩
    · simp [hx]
    · simp
      omega
  · exact ⟨r, i, by simp [hx], hr⟩

theorem hasPosId_set_self (fs : List (String × RawMeta)) (y : String) (v : Nat)
    (hv : 0 < v) (hk : y ∈ fs.map Prod.fst) : hasPosId (setWpPostId fs y v) y := by
  have hsome : (List.lookup y fs).isSome = true := (lookup_isSome_iff fs y).mpr hk
  rcases Option.isSome_iff_exists.mp hsome with ⟨r, hr⟩
  rcases Nat.exists_eq_add_of_lt hv with ⟨j, hj⟩
  rw [hasPosId, lookup_setWpPostId, hr]
  refine ⟨{ r with wpPostId := some v }, j, by simp, ?_⟩
  simp
  omega

theorem truthyId_pos (o : Option Nat) (i : Nat) (h : truthyId o = some i) : 0 < i := by
  cases o with
  | none => simp [truthyId] at h
  | some n =>
    cases n with
    | zero => simp [truthyId] at h
    | succ k =>
      simp [truthyId] at h
      omega

theorem oneSet_facts (fs : List (String × RawMeta)) (a : String) (u : Nat)
    (hu : 0 < u) (ha : a ∈ fs.map Prod.fst) :
    ((setWpPostId fs a u).map Prod.fst = fs.map Prod.fst) ∧
    (∀ x, hasPosId fs x → hasPosId (setWpPostId fs a u) x) ∧
    hasPosId (setWpPostId fs a u) a :=
  ⟨setWpPostId_keys fs a u,
   fun x hx => hasPosId_set_preserved fs x a u hu hx,
   hasPosId_set_self fs a u hu ha⟩

theorem twoSet_facts (fs : List (String × RawMeta)) (a b : String) (u v : Nat)
    (hu : 0 < u) (hv : 0 < v) (ha : a ∈ fs.map Prod.fst) (hb : b ∈ fs.map Prod.fst) :
    ((setWpPostId (setWpPostId fs a u) b v).map Prod.fst = fs.map Prod.fst) ∧
    (∀ x, hasPosId fs x → hasPosId (setWpPostId (setWpPostId fs a u) b v) x) ∧
    hasPosId (setWpPostId (setWpPostId fs a u) b v) a ∧
    hasPosId (setWpPostId (setWpPostId fs a u) b v) b := by
  have h1 := oneSet_facts fs a u hu ha
  refine ⟨?_, ?_, ?_, ?_⟩
  · rw [setWpPostId_keys, setWpPostId_keys]
  · intro x hx
    exact hasPosId_set_preserved _ x b v hv (h1.2.1 x hx)
  · exact hasPosId_set_preserved _ a b v hv h1.2.2
  · apply hasPosId_set_self _ b v hv
    rw [setWpPostId_keys]
    exact hb

theorem processOne_allOk (st : StepState) (pair : Pair)
    (hpos : 0 < st.srv.nextId)
    (hko : pair.koFile ∈ st.fs.map Prod.fst)
    (hen : ∀ ef, pair.enFile = some ef → ef ∈ st.fs.map Prod.fst) :
    ((processOne st pair allOk).2.fs.map Prod.fst = st.fs.map Prod.fst) ∧
    0 < (processOne st pair allOk).2.srv.nextId ∧
    (∀ x, hasPosId st.fs x → hasPosId (processOne st pair allOk).2.fs x) ∧
    hasPosId (processOne st pair allOk).2.fs pair.koFile ∧
    (∀ ef, pair.enFile = some ef → hasPosId (processOne st pair allOk).2.fs ef) := by
  cases hk : truthyId pair.koId with
  | some i =>
    have hipos : 0 < i := truthyId_pos _ i hk
    cases he : pair.enFile with
    | none =>
      have h1 := oneSet_facts st.fs pair.koFile i hipos hko
      simp only [processOne, serverPublish, allOk, hk, he]
      exact ⟨h1.1, hpos, h1.2.1, h1.2.2, fun ef hef => by simp at hef⟩
    | some ef =>
      have hefk := hen ef he
      cases hej : truthyId pair.enId with
      | some j =>
        have hjpos : 0 < j := truthyId_pos _ j hej
        have h2 := twoSet_facts st.fs pair.koFile ef i j hipos hjpos hko hefk
        simp only [processOne, serverPublish, allOk, hk, he, hej]
        refine ⟨h2.1, hpos, h2.2.1, h2.2.2.1, ?_⟩
        intro ef2 hef2
        have hee : ef2 = ef := (Option.some_inj.mp hef2).symm
        rw [hee]
        exact h2.2.2.2
      | none =>
        have h2 := twoSet_facts st.fs pair.koFile ef i st.srv.nextId hipos hpos hko hefk
        simp only [processOne, serverPublish, allOk, hk, he, hej]
        refine ⟨h2.1, by exact Nat.succ_pos _, h2.2.1, h2.2.2.1, ?_⟩
        intro ef2 hef2
        have hee : ef2 = ef := (Option.some_inj.mp hef2).symm
        rw [hee]
        exact h2.2.2.2
  | none =>
    cases he : pair.enFile with
    | none =>
      have h1 := oneSet_facts st.fs pair.koFile st.srv.nextId hpos hko
      simp only [processOne, serverPublish, allOk, hk, he]
      exact ⟨h1.1, by exact Nat.succ_pos _, h1.2.1, h1.2.2, fun ef hef => by simp at hef⟩
    | some ef =>
      have hefk := hen ef he
      cases hej : truthyId pair.enId with
      | some j =>
        have hjpos : 0 < j := truthyId_pos _ j hej
        have h2 := twoSet_facts st.fs pair.koFile ef st.srv.nextId j hpos hjpos hko hefk
        simp only [processOne, serverPublish, allOk, hk, he, hej]
        refine ⟨h2.1, by exact Nat.succ_pos _, h2.2.1, h2.2.2.1, ?_⟩
        intro ef2 hef2
        have hee : ef2 = ef := (Option.some_inj.mp hef2).symm
        rw [hee]
        exact h2.2.2.2
      | none =>
        have h2 := twoSet_facts st.fs pair.koFile ef st.srv.nextId (st.srv.nextId + 1)
          hpos (by omega) hko hefk
        simp only [processOne, serverPublish, allOk, hk, he, hej]
        refine ⟨h2.1, by exact Nat.succ_pos _, h2.2.1, h2.2.2.1, ?_⟩
        intro ef2 hef2
        have hee : ef2 = ef := (Option.some_inj.mp hef2).symm
        rw [hee]
        exact h2.2.2.2

theorem process_allOk_invariants (ps : List Pair) :
    ∀ st : StepState, 0 < st.srv.nextId →
      (∀ p ∈ ps, p.koFile ∈ st.fs.map Prod.fst ∧
        ∀ ef, p.enFile = some ef → ef ∈ st.fs.map Prod.fst) →
      ((process_pairs st ps (List.replicate ps.length allOk)).2.fs.map Prod.fst
        = st.fs.map Prod.fst) ∧
      0 < (process_pairs st ps (List.replicate ps.length allOk)).2.srv.nextId ∧
      (∀ x, hasPosId st.fs x →
        hasPosId (process_pairs st ps (List.replicate ps.length allOk)).2.fs x) ∧
      (∀ p ∈ ps,
        hasPosId (process_pairs st ps (List.replicate ps.length allOk)).2.fs p.koFile ∧
        ∀ ef, p.enFile = some ef →
          hasPosId (process_pairs st ps (List.replicate ps.length allOk)).2.fs ef) := by
  induction ps with
  | nil =>
    intro st hpos _
    refine ⟨by simp [process_pairs], by simpa [process_pairs] using hpos, ?_, ?_⟩
    · intro x hx
      simpa [process_pairs] using hx
    · intro p hp
      simp at hp
  | cons p ps ih =>
    intro st hpos hmem
    rw [List.length_cons, List.replicate_succ, process_pairs_cons]
    have hmp := hmem p (List.mem_cons_self _ _)
    have hone := processOne_allOk st p hpos hmp.1 hmp.2
    have hmem2 : ∀ q ∈ ps, q.koFile ∈ (processOne st p allOk).2.fs.map Prod.fst ∧
        ∀ ef, q.enFile = some ef → ef ∈ (processOne st p allOk).2.fs.map Prod.fst := by
      intro q hq
      rw [hone.1]
      exact hmem q (List.mem_cons_of_mem _ hq)
    have ihr := ih (processOne st p allOk).2 hone.2.1 hmem2
    refine ⟨ihr.1.trans hone.1, ihr.2.1, ?_, ?_⟩
    · intro x hx
      exact ihr.2.2.1 x (hone.2.2.1 x hx)
    · intro q hq
      rcases List.mem_cons.mp hq with hh | ht
      · subst hh
        refine ⟨ihr.2.2.1 _ hone.2.2.2.1, ?_⟩
        intro ef hef
        exact ihr.2.2.1 _ (hone.2.2.2.2 ef hef)
      · exact ihr.2.2.2 q ht

theorem processOne_preserves (Q : List (String × RawMeta) → Prop)
    (hQ : ∀ fs f v, Q fs → Q (setWpPostId fs f v))
    (st : StepState) (pair : Pair) (orc : PairOracle) (h : Q st.fs) :
    Q (processOne st pair orc).2.fs := by
  cases hko : orc.koOk <;> cases hk : truthyId pair.koId <;> cases he : pair.enFile <;>
    cases hen : orc.enOk <;> cases hej : truthyId pair.enId <;>
      simp only [processOne, serverPublish, hko, hk, he, hen, hej, if_true, if_false] <;>
      first
        | exact h
        | exact hQ _ _ _ h
        | exact hQ _ _ _ (hQ _ _ _ h)

theorem process_pairs_preserves (Q : List (String × RawMeta) → Prop)
    (hQ : ∀ fs f v, Q fs → Q (setWpPostId fs f v)) :
    ∀ (ps : List Pair) (os : List PairOracle) (st : StepState),
      Q st.fs → Q (process_pairs st ps os).2.fs := by
  intro ps
  induction ps with
  | nil =>
    intro os st h
    cases os <;> simpa [process_pairs] using h
  | cons p ps2 ih =>
    intro os st h
    cases os with
    | nil => simpa [process_pairs] using h
    | cons o os2 =>
      rw [process_pairs_cons]
      exact ih os2 _ (processOne_preserves Q hQ st p o h)

theorem lookup_allFilesOf (fs : List (String × RawMeta)) :
    (fs.map Prod.fst).Nodup → ∀ x : String,
    lookupMeta (allFilesOf fs) x = (List.lookup x fs).bind (fun r => parse_markdown_file x r) := by
  induction fs with
  | nil => intro _ x; rfl
  | cons pr rest ih =>
    intro hN x
    simp at hN
    by_cases hx : x = pr.1
    · subst hx
      rw [List.lookup]
      simp only [beq_self_eq_true, Option.some_bind]
      simp only [allFilesOf, List.filterMap_cons]
      cases hp : parse_markdown_file pr.1 pr.2 with
      | some m =>
        show lookupMeta ((pr.1, m) :: allFilesOf rest) pr.1 = some m
        rw [lookupMeta, List.lookup]
        simp
      | none =>
        show lookupMeta (allFilesOf rest) pr.1 = none
        cases hl : lookupMeta (allFilesOf rest) pr.1 with
        | none => rfl
        | some m2 =>
          exfalso
          have hsome : (lookupMeta (allFilesOf rest) pr.1).isSome = true := by rw [hl]; rfl
          have hk := allFilesOf_keys_subset rest pr.1 ((lookupMeta_isSome_iff _ _).mp hsome)
          rcases List.mem_map.mp hk with ⟨pr2, hpr2, hfst⟩
          exact hN.1 pr2.2 (by rw [← hfst]; exact hpr2)
    · rw [List.lookup]
      rw [beq_eq_false_iff_ne.mpr hx]
      simp only [allFilesOf, List.filterMap_cons]
      cases hp : parse_markdown_file pr.1 pr.2 with
      | some m =>
        rw [Option.map_some']
        rw [lookupMeta, List.lookup]
        have : (x == (pr.1, m).1) = false := beq_eq_false_iff_ne.mpr hx
        rw [this]
        exact ih hN.2 x
      | none =>
        rw [Option.map_none']
        exact ih hN.2 x

theorem collect_pair_ids (fs : List (String × RawMeta)) (dirs : List String)
    (hN : (fs.map Prod.fst).Nodup) :
    ∀ p ∈ collect_language_pairs fs dirs,
      (∃ r, List.lookup p.koFile fs = some r ∧ p.koId = r.wpPostId) ∧
      (∀ ef, p.enFile = some ef →
        p.enId = (lookupMeta (allFilesOf fs) ef).bind (fun m => m.wpPostId)) := by
  intro p hp
  simp only [collect_language_pairs] at hp
  have hfacts := collectAux_facts (allFilesOf fs) (postIdxOf (allFilesOf fs))
    (groupIdxOf (allFilesOf fs)) dirs
    (fun m x hx => postIdxOf_mem_keys _ m x hx)
    (fun g x hx => groupIdxOf_mem_keys _ g x hx)
    (allFilesOf fs) [] p hp
  constructor
  · rcases hfacts.1 with ⟨m, hm, hid⟩
    rcases List.mem_filterMap.mp hm with ⟨pr, hpr, hsome⟩
    rcases Option.map_eq_some'.mp hsome with ⟨m2, hm2, heq⟩
    have hk : pr.1 = p.koFile := congrArg Prod.fst heq
    have hm2m : m2 = m := congrArg Prod.snd heq
    refine ⟨pr.2, ?_, ?_⟩
    · rw [← hk]
      exact lookup_of_mem_nodup fs pr.1 pr.2 hN hpr
    · rw [hid]
      rw [hm2m] at hm2
      exact (parse_fields pr.1 pr.2 m hm2).1
  · intro ef hef
    exact (hfacts.2.2.2 ef hef).2

theorem process_pairs_all_truthy (ps : List Pair) :
    ∀ st : StepState,
      (∀ p ∈ ps, (truthyId p.koId).isSome = true ∧
        ∀ ef, p.enFile = some ef → (truthyId p.enId).isSome = true) →
      ((process_pairs st ps (List.replicate ps.length allOk)).2.srv.created
        = st.srv.created) ∧
      (∀ t ∈ (process_pairs st ps (List.replicate ps.length allOk)).1,
        ∀ s ep, PubAction.publishPost s ep ∈ t → ∃ i, ep = Endpoint.updatePost i) := by
  induction ps with
  | nil =>
    intro st _
    constructor
    · simp [process_pairs]
    · intro t ht
      simp [process_pairs] at ht
  | cons p ps ih =>
    intro st hall
    rw [List.length_cons, List.replicate_succ, process_pairs_cons]
    have hp := hall p (List.mem_cons_self _ _)
    rcases Option.isSome_iff_exists.mp hp.1 with ⟨i, hi⟩
    have ihr := ih (processOne st p allOk).2
      (fun q hq => hall q (List.mem_cons_of_mem _ hq))
    cases he : p.enFile with
    | none =>
      have hone : processOne st p allOk =
          ([PubAction.publishPost Side.ko (Endpoint.updatePost i),
            PubAction.saveMeta Side.ko p.koFile i],
           { fs := setWpPostId st.fs p.koFile i, srv := st.srv, failed := st.failed }) := by
        simp [processOne, serverPublish, allOk, endpointFor, hi, he]
      constructor
      · have := ihr.1
        rw [hone] at this ⊢
        exact this
      · intro t ht s ep hmem
        rcases List.mem_cons.mp ht with hh | htl
        · subst hh
          rw [hone] at hmem
          simp at hmem
          exact ⟨i, hmem.2⟩
        · exact ihr.2 t htl s ep hmem
    | some ef =>
      rcases Option.isSome_iff_exists.mp (hp.2 ef he) with ⟨j, hj⟩
      have hone : processOne st p allOk =
          ([PubAction.publishPost Side.ko (Endpoint.updatePost i),
            PubAction.saveMeta Side.ko p.koFile i,
            PubAction.publishPost Side.en (Endpoint.updatePost j),
            PubAction.saveMeta Side.en ef j,
            PubAction.linkTranslations i j],
           { fs := setWpPostId (setWpPostId st.fs p.koFile i) ef j,
             srv := st.srv, failed := st.failed }) := by
        simp [processOne, serverPublish, allOk, endpointFor, hi, hj, he]
      constructor
      · have := ihr.1
        rw [hone] at this ⊢
        exact this
      · intro t ht s ep hmem
        rcases List.mem_cons.mp ht with hh | htl
        · subst hh
          rw [hone] at hmem
          simp at hmem
          rcases hmem with ⟨_, h2⟩ | ⟨_, h2⟩
          · exact ⟨i, h2⟩
          · exact ⟨j, h2⟩
        · exact ihr.2 t htl s ep hmem

/-- Claim C2, amended: when no eligible document carries a truthy
`mirror_post_id` (so the mirror-id strategy is inert), file paths are
unique, and the server's next id is positive, a second reconciliation run
over the filesystem produced by a fully successful first run creates zero
new remote posts and issues every publish through the update endpoint. -/
theorem second_run_all_updates
    (dirs : List String) (fs : List (String × RawMeta)) (srv : Server)
    (hN : (fs.map Prod.fst).Nodup)
    (hM : ∀ pr ∈ fs, truthyId pr.2.mirrorPostId = none)
    (hS : 0 < srv.nextId) :
    ((runOnce dirs (runOnce dirs fs srv).2.fs (runOnce dirs fs srv).2.srv).2.srv.created
      = (runOnce dirs fs srv).2.srv.created) ∧
    (∀ t ∈ (runOnce dirs (runOnce dirs fs srv).2.fs (runOnce dirs fs srv).2.srv).1,
      ∀ s ep, PubAction.publishPost s ep ∈ t → ∃ i, ep = Endpoint.updatePost i) := by
  have hmem1 : ∀ p ∈ collect_language_pairs fs dirs,
      p.koFile ∈ fs.map Prod.fst ∧
      ∀ ef, p.enFile = some ef → ef ∈ fs.map Prod.fst := by
    intro p hp
    constructor
    · exact allFilesOf_keys_subset fs _ ((collect_pairs_coverage fs dirs).1 p hp).1
    · intro ef hef
      exact allFilesOf_keys_subset fs ef
        (appearsIn_mem_keys fs dirs ef ⟨p, hp, Or.inr hef⟩)
  have hinv := process_allOk_invariants (collect_language_pairs fs dirs)
    { fs := fs, srv := srv, failed := 0 } hS hmem1
  have hQ := process_pairs_preserves
    (fun l => rawShape l = rawShape fs ∧ ∀ pr ∈ l, truthyId pr.2.mirrorPostId = none)
    (fun l f v h => ⟨(setWpPostId_rawShape l f v).trans h.1, setWpPostId_mirrorFree l f v h.2⟩)
    (collect_language_pairs fs dirs)
    (List.replicate (collect_language_pairs fs dirs).length allOk)
    { fs := fs, srv := srv, failed := 0 } ⟨rfl, hM⟩
  have hkeys1 : (runOnce dirs fs srv).2.fs.map Prod.fst = fs.map Prod.fst := hinv.1
  have hN1 : ((runOnce dirs fs srv).2.fs.map Prod.fst).Nodup := by
    rw [hkeys1]
    exact hN
  have hshape : (collect_language_pairs (runOnce dirs fs srv).2.fs dirs).map pairShape =
      (collect_language_pairs fs dirs).map pairShape :=
    collect_pairs_shape_congr (runOnce dirs fs srv).2.fs fs dirs hQ.1 hQ.2 hM
  have hids : ∀ p ∈ collect_language_pairs (runOnce dirs fs srv).2.fs dirs,
      (truthyId p.koId).isSome = true ∧
      ∀ ef, p.enFile = some ef → (truthyId p.enId).isSome = true := by
    intro p hp
    have hpid := collect_pair_ids (runOnce dirs fs srv).2.fs dirs hN1 p hp
    have hpsh : (p.koFile, p.enFile) ∈ (collect_language_pairs fs dirs).map pairShape := by
      rw [← hshape]
      exact List.mem_map_of_mem pairShape hp
    rcases List.mem_map.mp hpsh with ⟨q, hq, hqe⟩
    have hqk : q.koFile = p.koFile := congrArg Prod.fst hqe
    have hqen : q.enFile = p.enFile := congrArg Prod.snd hqe
    have hkpos : hasPosId (runOnce dirs fs srv).2.fs p.koFile := by
      rw [← hqk]
      exact (hinv.2.2.2 q hq).1
    constructor
    · rcases hpid.1 with ⟨r, hl, hid⟩
      rcases hkpos with ⟨r2, i2, hl2, hr2⟩
      have hrr : r = r2 := by
        rw [hl] at hl2
        exact Option.some_inj.mp hl2
      rw [hid, hrr, hr2]
      rfl
    · intro ef hef
      have hqef : q.enFile = some ef := by rw [hqen]; exact hef
      have hepos : hasPosId (runOnce dirs fs srv).2.fs ef := (hinv.2.2.2 q hq).2 ef hqef
      have hen := hpid.2 ef hef
      rcases hepos with ⟨r, i, hl, hr⟩
      have hlm := lookup_allFilesOf (runOnce dirs fs srv).2.fs hN1 ef
      rw [hl] at hlm
      have hefk : ef ∈ (allFilesOf (runOnce dirs fs srv).2.fs).map Prod.fst :=
        appearsIn_mem_keys (runOnce dirs fs srv).2.fs dirs ef ⟨p, hp, Or.inr hef⟩
      have hsome : (lookupMeta (allFilesOf (runOnce dirs fs srv).2.fs) ef).isSome = true :=
        (lookupMeta_isSome_iff _ _).mpr hefk
      cases hpr : parse_markdown_file ef r with
      | none =>
        exfalso
        rw [hlm] at hsome
        simp [hpr] at hsome
      | some m =>
        have hw := (parse_fields ef r m hpr).1
        rw [hen, hlm]
        simp [hpr, hw, hr, truthyId]
  have hmain := process_pairs_all_truthy
    (collect_language_pairs (runOnce dirs fs srv).2.fs dirs)
    { fs := (runOnce dirs fs srv).2.fs, srv := (runOnce dirs fs srv).2.srv, failed := 0 }
    hids
  exact hmain

/-- The document set of the idempotence counterexample: `k/a.md` carries a
`mirror_post_id` equal to an id the server will assign during the first
run, and three documents share group `g`. -/
def fsC2 : List (String × RawMeta) :=
  [ ("k/a.md", { rawPub with mirrorPostId := some 102 }),
    ("k/b.md", rawGrp "g"),
    ("k/english/e1.md", rawGrp "g"),
    ("k/english/e2.md", rawGrp "g") ]

def dirsC2 : List String := ["k/english"]

def srv100 : Server := { nextId := 100, created := 0 }

/-- Claim C2, counterexample: after a fully successful first run over
`fsC2` (which creates posts 100, 101, 102 and persists the ids), the second
run re-pairs `k/a.md` with `k/english/e1.md` through the mirror-id
strategy, which frees `k/english/e2.md` to become `k/b.md`'s group match;
`k/english/e2.md` was never published, so its publish call takes the create
branch: the second run creates one new remote post. -/
theorem second_run_creates_post :
    (runOnce dirsC2 fsC2 srv100).2.srv.created = 3 ∧
    (runOnce dirsC2 (runOnce dirsC2 fsC2 srv100).2.fs
        (runOnce dirsC2 fsC2 srv100).2.srv).2.srv.created
      = (runOnce dirsC2 fsC2 srv100).2.srv.created + 1 := by
  constructor
  · decide
  · decide

/-- Claim C2 witness: on a mirror-free one-document set the second run
creates nothing. -/
theorem second_run_all_updates_witness :
    (runOnce [] (runOnce [] fsKo srv100).2.fs (runOnce [] fsKo srv100).2.srv).2.srv.created
      = (runOnce [] fsKo srv100).2.srv.created :=
  (second_run_all_updates [] fsKo srv100 (by decide) (by decide) (by decide)).1
